import Mathlib

/-!
# Verification of the ARF core (Samoyed repository)

A shallow embedding of the ARF (Append-only Record Framework) core found in
`arf.py` and `selfdelimitedblob.py`, together with theorems settling the
frozen claims about it.

Conventions of the embedding:
* Bytes are modelled as natural numbers (a byte list is a `List Nat` whose
  entries are < 256 whenever produced by the code itself).
* Python exceptions (`TypeError`, `ValueError`, `UnitDataFormatError`,
  failing `assert` statements) are modelled by `Option`: `none` is a raised
  exception, `some x` a normal return of `x`.
* Machine integers do not occur: Python integers are unbounded, and every
  width restriction in the source is an explicit `validate` range check,
  which is embedded as the corresponding explicit bound on `Nat`.
* The source is an exploratory prototype and contains a number of obvious
  one-token slips (an unqualified classmethod name, `self` inside a
  `classmethod`, a misspelled local).  Where the intended reading is
  unambiguous the embedding follows that reading and a comment at the
  definition records the slip.  Where a slip or a design flaw actually
  decides a claim, the claim is settled against the code as written.
-/

namespace ARF

/-! ## Little-endian integer serialization

`int.to_bytes(n, 'little')` and `int.from_bytes(b, 'little')`, the
primitives used by `UInt._unsafe_pack` / `UInt._unsafe_unpack`
(`arf.py` lines 59-65). -/

/-- `v.to_bytes(n, 'little')`: the `n` base-256 digits of `v`, least
significant first. -/
def toLE : Nat → Nat → List Nat
  | 0, _ => []
  | n + 1, v => v % 256 :: toLE n (v / 256)

/-- `int.from_bytes(b, 'little')`. -/
def fromLE : List Nat → Nat
  | [] => 0
  | b :: bs => b + 256 * fromLE bs

theorem toLE_length (n v : Nat) : (toLE n v).length = n := by
  induction n generalizing v with
  | zero => rfl
  | succ n ih => simp [toLE, ih]

theorem fromLE_toLE (n v : Nat) (h : v < 256 ^ n) : fromLE (toLE n v) = v := by
  induction n generalizing v with
  | zero =>
      simp only [Nat.pow_zero, Nat.lt_one_iff] at h
      simp [toLE, fromLE, h]
  | succ n ih =>
      have hdiv : v / 256 < 256 ^ n := by
        rw [Nat.div_lt_iff_lt_mul (by norm_num : 0 < 256)]
        calc v < 256 ^ (n + 1) := h
          _ = 256 ^ n * 256 := by rw [Nat.pow_succ]
      simp only [toLE, fromLE, ih (v / 256) hdiv]
      omega

/-! ## DataDef codecs (`arf.py` lines 24-151)

`DataDef.pack` is "validate then serialize", `DataDef.unpack` is
"deserialize then validate"; a validation failure raises, i.e. yields
`none`.  Each concrete codec of the source is embedded below. -/

/-- `UInt.bit_length_to_byte_length` (`arf.py` line 49-51): `(bits-1)//8 + 1`.
The source also asserts `bits > 0`; theorems carry that hypothesis. -/
def bitLengthToByteLength (bits : Nat) : Nat := (bits - 1) / 8 + 1

/-- `UInt.byte_length` for a subclass with class attribute `bit_length = bits`.
(The source line 54 spells the call `bit_length_to_byte_length(...)` without
the `cls.` qualifier, a slip; the intended static helper is one line above.) -/
def uintByteLength (bits : Nat) : Nat := bitLengthToByteLength bits

/-- `UInt.validate` (line 56-58): `v` is a nonnegative int with
`v.bit_length() <= bits`, i.e. `v < 2 ^ bits`. -/
def uintValidate (bits v : Nat) : Bool := decide (v < 2 ^ bits)

/-- `UInt.pack`: validate, then `v.to_bytes(byte_length(), 'little')`.
Instantiated by the source as `TxScopeID` (bits = 16), `StrandID` and
`StrandSize` (bits = 64). -/
def uintPack (bits v : Nat) : Option (List Nat) :=
  if uintValidate bits v then some (toLE (uintByteLength bits) v) else none

/-- `UInt.unpack`: `int.from_bytes(b, 'little')`, then validate. -/
def uintUnpack (bits : Nat) (b : List Nat) : Option Nat :=
  if uintValidate bits (fromLE b) then some (fromLE b) else none

/-- `RangedUInt.byte_length` (lines 80-84): byte length derived from the
maximum of `valid_range = range(lo, hi)` via `(hi-1).bit_length()`.
`Nat.size` is Python's `int.bit_length` on nonnegative ints. -/
def rangedByteLength (hi : Nat) : Nat := bitLengthToByteLength (Nat.size (hi - 1))

/-- `RangedUInt.validate` (lines 85-88): `v in range(lo, hi)`. -/
def rangedValidate (lo hi v : Nat) : Bool := decide (lo ≤ v) && decide (v < hi)

/-- `RangedUInt.pack`: validate, then serialize over `rangedByteLength`.
The `byte_length` asserts (`0 <= start < stop`, `bits > 0`) fail — raise —
when `hi < 2`; that is the `2 ≤ hi` conjunct of the guard.  Instantiated by
the source as `StrandDataLength` (`range(1, 513)`). -/
def rangedPack (lo hi v : Nat) : Option (List Nat) :=
  if rangedValidate lo hi v && decide (2 ≤ hi) then
    some (toLE (rangedByteLength hi) v)
  else none

/-- `RangedUInt.unpack`: deserialize then validate. -/
def rangedUnpack (lo hi : Nat) (b : List Nat) : Option Nat :=
  if rangedValidate lo hi (fromLE b) then some (fromLE b) else none

/-- `ByteInt._unsafe_pack` (lines 96-98) is `bytes((v,))`; with
`RangedUInt.validate` over the subclass's `valid_range`.  Instantiated by
the source as `UnitTypeID` (`range(0, 256)`) and `StrandGroupMagnitude`
(`range(1, StrandID.bit_length)`, i.e. `range(1, 64)`).  `ByteInt`'s own
`byte_length` asserts `valid_range.stop <= 256`; the `hi ≤ 256` conjunct. -/
def byteRangedPack (lo hi v : Nat) : Option (List Nat) :=
  if rangedValidate lo hi v && decide (hi ≤ 256) then some [v] else none

/-- `ByteInt._unsafe_unpack` is `b[0]` (raises on an empty buffer),
followed by `RangedUInt.validate`. -/
def byteRangedUnpack (lo hi : Nat) (b : List Nat) : Option Nat :=
  match b with
  | [] => none
  | x :: _ => if rangedValidate lo hi x then some x else none

/-- `UnitTypeID` reservations (lines 103-106): `deleted_range = range(0, 2)`,
`arf_base_defined_range = range(2, 128)`, `app_defined_range = range(128, 256)`. -/
def unitTypeIDDeleted (t : Nat) : Bool := decide (t < 2)

/-- `StrandGroupMagnitude.valid_range = range(1, StrandID.bit_length)`
(line 109): magnitudes 1..63 pass, 64 does not. -/
def strandGroupMagnitudeValidate (v : Nat) : Bool := rangedValidate 1 64 v

/-- `Bool.validate` (lines 115-118) only checks `type(v) is bool`, which an
unpacked value always satisfies; `Bool._unsafe_pack` is
`int(v).to_bytes(1,'little')`. -/
def boolPack (b : Bool) : Option (List Nat) :=
  some [if b then 1 else 0]

/-- `Bool.unpack`: `bool(b[0])` — *any* nonzero byte decodes to true — then
`validate`, which cannot fail on a `bool`. -/
def boolUnpack (b : List Nat) : Option Bool :=
  match b with
  | [] => none
  | x :: _ => some (x != 0)

/-- `ByteData.validate` (lines 127-132) with a fixed `byte_length() = L`:
the value must be a byte string of length exactly `L`; pack and unpack are
the identity on the bytes. -/
def byteDataPack (L : Nat) (v : List Nat) : Option (List Nat) :=
  if v.length = L then some v else none

def byteDataUnpack (L : Nat) (b : List Nat) : Option (List Nat) :=
  if b.length = L then some b else none

/-- `StrandData` (lines 140-147): variable-length `ByteData` whose length
must pass `StrandDataLength.validate`, i.e. lie in `range(1, 513)`.
(The source calls `ByteData.validate(v)` bound to `ByteData`, whose
`byte_length` is the abstract `NotImplementedError` stub — a slip; the
intended check is on `StrandData.byte_length()`, the length type.) -/
def strandDataPack (v : List Nat) : Option (List Nat) :=
  if 1 ≤ v.length ∧ v.length ≤ 512 then some v else none

def strandDataUnpack (b : List Nat) : Option (List Nat) :=
  if 1 ≤ b.length ∧ b.length ≤ 512 then some b else none

/-! ### Round-trip (claim C1) -/

theorem bits_le_eight_mul_byteLength (bits : Nat) :
    bits ≤ 8 * bitLengthToByteLength bits := by
  have h := Nat.div_add_mod (bits - 1) 8
  have h2 : (bits - 1) % 8 < 8 := Nat.mod_lt _ (by norm_num)
  unfold bitLengthToByteLength
  omega

theorem lt_pow256_of_lt_pow2 {bits v : Nat} (h : v < 2 ^ bits) :
    v < 256 ^ bitLengthToByteLength bits := by
  have h1 : (2 : Nat) ^ bits ≤ 2 ^ (8 * bitLengthToByteLength bits) :=
    Nat.pow_le_pow_right (by norm_num) (bits_le_eight_mul_byteLength bits)
  have h2 : (256 : Nat) ^ bitLengthToByteLength bits
      = 2 ^ (8 * bitLengthToByteLength bits) := by
    rw [Nat.pow_mul]
  omega

theorem uint_roundtrip (bits v : Nat) (h : v < 2 ^ bits) :
    (uintPack bits v).bind (uintUnpack bits) = some v := by
  have hv : uintValidate bits v = true := by simp [uintValidate, h]
  have hle : fromLE (toLE (uintByteLength bits) v) = v :=
    fromLE_toLE _ _ (lt_pow256_of_lt_pow2 h)
  simp [uintPack, uintUnpack, hv, hle]

theorem ranged_roundtrip (lo hi v : Nat) (h1 : lo ≤ v) (h2 : v < hi)
    (h3 : 2 ≤ hi) : (rangedPack lo hi v).bind (rangedUnpack lo hi) = some v := by
  have hv : rangedValidate lo hi v = true := by simp [rangedValidate, h1, h2]
  have hsz : v < 2 ^ Nat.size (hi - 1) := by
    have : hi - 1 < 2 ^ Nat.size (hi - 1) := Nat.lt_size_self _
    omega
  have hle : fromLE (toLE (rangedByteLength hi) v) = v :=
    fromLE_toLE _ _ (lt_pow256_of_lt_pow2 hsz)
  rw [rangedByteLength] at hle
  simp [rangedPack, rangedUnpack, hv, h3, rangedByteLength, hle]

theorem byteRanged_roundtrip (lo hi v : Nat) (h1 : lo ≤ v) (h2 : v < hi)
    (h3 : hi ≤ 256) :
    (byteRangedPack lo hi v).bind (byteRangedUnpack lo hi) = some v := by
  have hv : rangedValidate lo hi v = true := by simp [rangedValidate, h1, h2]
  simp [byteRangedPack, byteRangedUnpack, hv, h3]

/-- **C1.** For every DataDef codec of the source — the `UInt` family
(`TxScopeID`, `StrandID`, `StrandSize` are `bits = 16, 64, 64`),
`RangedUInt` (with its asserts satisfiable, as in `StrandDataLength`,
`lo = 1, hi = 513`), the one-byte `ByteInt` family (`UnitTypeID`,
`StrandGroupMagnitude`), `Bool`, fixed-length `ByteData` and `StrandData` —
and every value `v` that passes that codec's `validate`,
`unpack(pack(v)) = v`. -/
theorem C1_unpack_pack_roundtrip :
    (∀ bits v, 0 < bits → v < 2 ^ bits →
      (uintPack bits v).bind (uintUnpack bits) = some v)
    ∧ (∀ lo hi v, lo ≤ v → v < hi → 2 ≤ hi →
      (rangedPack lo hi v).bind (rangedUnpack lo hi) = some v)
    ∧ (∀ lo hi v, lo ≤ v → v < hi → hi ≤ 256 →
      (byteRangedPack lo hi v).bind (byteRangedUnpack lo hi) = some v)
    ∧ (∀ b : Bool, (boolPack b).bind boolUnpack = some b)
    ∧ (∀ L v, v.length = L → (byteDataPack L v).bind (byteDataUnpack L) = some v)
    ∧ (∀ v : List Nat, 1 ≤ v.length → v.length ≤ 512 →
      (strandDataPack v).bind strandDataUnpack = some v) := by
  refine ⟨fun bits v _ h => uint_roundtrip bits v h,
          fun lo hi v h1 h2 h3 => ranged_roundtrip lo hi v h1 h2 h3,
          fun lo hi v h1 h2 h3 => byteRanged_roundtrip lo hi v h1 h2 h3,
          ?_, ?_, ?_⟩
  · intro b; cases b <;> simp [boolPack, boolUnpack]
  · intro L v h; simp [byteDataPack, byteDataUnpack, h]
  · intro v h1 h2; simp [strandDataPack, strandDataUnpack, h1, h2]

/-- Witness for C1: concrete round trips through each codec —
`TxScopeID` (16-bit) at 43981, `StrandDataLength` at 3, `UnitTypeID` at 6,
`Bool` at `true`, an 8-byte `ByteData`, and `StrandData` on `[1,2,3]`. -/
theorem C1_unpack_pack_roundtrip_witness :
    (uintPack 16 43981).bind (uintUnpack 16) = some 43981
    ∧ (rangedPack 1 513 3).bind (rangedUnpack 1 513) = some 3
    ∧ (byteRangedPack 0 256 6).bind (byteRangedUnpack 0 256) = some 6
    ∧ (boolPack true).bind boolUnpack = some true
    ∧ (byteDataPack 8 [7, 7, 7, 7, 7, 7, 7, 7]).bind (byteDataUnpack 8)
        = some [7, 7, 7, 7, 7, 7, 7, 7]
    ∧ (strandDataPack [1, 2, 3]).bind strandDataUnpack = some [1, 2, 3] :=
  ⟨C1_unpack_pack_roundtrip.1 16 43981 (by decide) (by norm_num),
   C1_unpack_pack_roundtrip.2.1 1 513 3 (by decide) (by decide) (by decide),
   C1_unpack_pack_roundtrip.2.2.1 0 256 6 (by decide) (by decide) (by decide),
   C1_unpack_pack_roundtrip.2.2.2.1 true,
   C1_unpack_pack_roundtrip.2.2.2.2.1 8 [7, 7, 7, 7, 7, 7, 7, 7] (by decide),
   C1_unpack_pack_roundtrip.2.2.2.2.2 [1, 2, 3] (by decide) (by decide)⟩

/-! ## StrandGroupSelect and strand-group ranges (claim C6)

`StrandGroupSelect` (`arf.py` lines 321-332) holds pieces
`strd-group : StrandID` and `strd-group-mag : StrandGroupMagnitude`. -/

/-- `StrandGroupMagnitude.to_strand_group_mask` (lines 110-112): `(1 << v) - 1`. -/
def toStrandGroupMask (v : Nat) : Nat := (1 <<< v) - 1

/-- `StrandGroupSelect.to_range` (lines 327-332): with
`mask = to_strand_group_mask(mag)`, the half-open range
`range(group & ~mask, (group | mask) + 1)`.  On a nonnegative Python int,
`group & ~mask` clears exactly the bits covered by `mask`, i.e. equals
`group - (group & mask)`. -/
def strandGroupSelectToRange (group mag : Nat) : Nat × Nat :=
  let mask := toStrandGroupMask mag
  (group - (group &&& mask), (group ||| mask) + 1)

/-- Constructing a `StrandGroupSelect` unit validates each piece
(`UnitBase.__init__` → `_validate`, lines 196-208): `strd-group` must pass
`StrandID.validate` (64-bit) and `strd-group-mag` must pass
`StrandGroupMagnitude.validate` (`range(1, 64)`). -/
def mkStrandGroupSelect (group mag : Nat) : Option (Nat × Nat) :=
  if uintValidate 64 group && strandGroupMagnitudeValidate mag then
    some (group, mag)
  else none

theorem one_shiftLeft_eq_pow (m : Nat) : 1 <<< m = 2 ^ m := by
  rw [Nat.shiftLeft_eq, Nat.one_mul]

theorem lor_mask_eq (g m : Nat) :
    g ||| (2 ^ m - 1) = 2 ^ m * (g / 2 ^ m) + (2 ^ m - 1) := by
  have hlt : 2 ^ m - 1 < 2 ^ m := by
    have := Nat.two_pow_pos m; omega
  rw [Nat.mul_add_lt_is_or hlt]
  apply Nat.eq_of_testBit_eq
  intro j
  simp only [Nat.testBit_or, Nat.testBit_two_pow_sub_one]
  by_cases hj : j < m
  · simp [hj]
  · have hge : m ≤ j := Nat.le_of_not_lt hj
    have h1 : Nat.testBit (2 ^ m * (g / 2 ^ m)) j = Nat.testBit (g / 2 ^ m) (j - m) := by
      rw [Nat.testBit_mul_pow_two]
      simp [hge]
    have h2 : Nat.testBit g j = Nat.testBit (g / 2 ^ m) (j - m) := by
      rw [← Nat.shiftRight_eq_div_pow, Nat.testBit_shiftRight,
        Nat.add_sub_cancel' hge]
    simp [hj, h1, h2]

theorem xor_div_pow (x g m : Nat) :
    (x ^^^ g) / 2 ^ m = x / 2 ^ m ^^^ g / 2 ^ m := by
  rw [← Nat.shiftRight_eq_div_pow, ← Nat.shiftRight_eq_div_pow,
    ← Nat.shiftRight_eq_div_pow]
  apply Nat.eq_of_testBit_eq
  intro j
  simp [Nat.testBit_shiftRight, Nat.testBit_xor]

theorem xor_lt_pow_iff_div_eq (x g m : Nat) :
    (x ^^^ g < 2 ^ m) ↔ x / 2 ^ m = g / 2 ^ m := by
  have hpos := Nat.two_pow_pos m
  constructor
  · intro h
    have : (x ^^^ g) / 2 ^ m = 0 := Nat.div_eq_of_lt h
    rw [xor_div_pow] at this
    exact Nat.xor_eq_zero.mp this
  · intro h
    have hz : (x ^^^ g) / 2 ^ m = 0 := by
      rw [xor_div_pow, h]
      exact Nat.xor_eq_zero.mpr rfl
    have h1 := Nat.div_add_mod (x ^^^ g) (2 ^ m)
    rw [hz, Nat.mul_zero, Nat.zero_add] at h1
    have h2 := Nat.mod_lt (x ^^^ g) hpos
    omega

theorem div_eq_iff_between (x q m : Nat) :
    x / 2 ^ m = q ↔ 2 ^ m * q ≤ x ∧ x < 2 ^ m * q + 2 ^ m := by
  have hpos := Nat.two_pow_pos m
  constructor
  · intro h
    have h1 := Nat.div_add_mod x (2 ^ m)
    rw [h] at h1
    have h2 := Nat.mod_lt x hpos
    omega
  · intro ⟨h1, h2⟩
    have hle : q ≤ x / 2 ^ m :=
      (Nat.le_div_iff_mul_le hpos).mpr (by rw [Nat.mul_comm]; exact h1)
    have hlt : x / 2 ^ m < q + 1 :=
      (Nat.div_lt_iff_lt_mul hpos).mpr (by
        calc x < 2 ^ m * q + 2 ^ m := h2
          _ = (q + 1) * 2 ^ m := by ring)
    omega

/-- **C6 (amended).** For every `group` and every magnitude `mag` in 1..63 —
the actual valid range of `StrandGroupMagnitude`, which is
`range(1, StrandID.bit_length) = range(1, 64)` —
`StrandGroupSelect(group, mag).to_range()` is the half-open interval
`[group & ~mask, (group | mask) + 1)` with `mask = (1 << mag) - 1`, and a
`strand_id` lies in that interval iff `(strand_id ^ group) < (1 << mag)`.
(The claim's parenthetical "1..64" overstates the valid range by one; see
the counterexample.) -/
theorem C6_strand_group_range (group mag sid : Nat)
    (h1 : 1 ≤ mag) (h2 : mag ≤ 63) :
    strandGroupMagnitudeValidate mag = true
    ∧ strandGroupSelectToRange group mag
        = (group - (group &&& toStrandGroupMask mag),
           (group ||| toStrandGroupMask mag) + 1)
    ∧ ((strandGroupSelectToRange group mag).1 ≤ sid
        ∧ sid < (strandGroupSelectToRange group mag).2
       ↔ sid ^^^ group < 1 <<< mag) := by
  refine ⟨by simp [strandGroupMagnitudeValidate, rangedValidate]; omega, rfl, ?_⟩
  have hmask : toStrandGroupMask mag = 2 ^ mag - 1 := by
    rw [toStrandGroupMask, one_shiftLeft_eq_pow]
  have hpos := Nat.two_pow_pos mag
  have hstart : (strandGroupSelectToRange group mag).1 = 2 ^ mag * (group / 2 ^ mag) := by
    show group - (group &&& toStrandGroupMask mag) = _
    rw [hmask, Nat.and_pow_two_sub_one_eq_mod]
    have := Nat.div_add_mod group (2 ^ mag)
    omega
  have hstop : (strandGroupSelectToRange group mag).2
      = 2 ^ mag * (group / 2 ^ mag) + 2 ^ mag := by
    show (group ||| toStrandGroupMask mag) + 1 = _
    rw [hmask, lor_mask_eq]
    omega
  rw [hstart, hstop, one_shiftLeft_eq_pow, xor_lt_pow_iff_div_eq,
    div_eq_iff_between]

/-- Witness for C6 (amended): group `0x1234`, magnitude 8 — the range is
`[0x1200, 0x1300)` and `0x12FF` is a member, matching the xor test. -/
theorem C6_strand_group_range_witness :
    strandGroupMagnitudeValidate 8 = true
    ∧ strandGroupSelectToRange 4660 8
        = (4660 - (4660 &&& toStrandGroupMask 8),
           (4660 ||| toStrandGroupMask 8) + 1)
    ∧ ((strandGroupSelectToRange 4660 8).1 ≤ 4863
        ∧ 4863 < (strandGroupSelectToRange 4660 8).2
       ↔ 4863 ^^^ 4660 < 1 <<< 8) :=
  C6_strand_group_range 4660 8 4863 (by decide) (by decide)

/-- Counterexample to C6 as stated: the claim calls 1..64 "the valid range
of StrandGroupMagnitude", but the source's `valid_range` is
`range(1, StrandID.bit_length) = range(1, 64)`, so magnitude 64 fails
`validate` and `StrandGroupSelect(group, 64)` cannot be constructed (its
`to_range` is unreachable for mag = 64). -/
theorem C6_counterexample :
    strandGroupMagnitudeValidate 64 = false ∧ mkStrandGroupSelect 0 64 = none := by
  decide

/-! ## Bool decoding (claim C8) -/

/-- Counterexample to C8 as stated: `Bool._unsafe_unpack` is `bool(b[0])`
(`arf.py` line 122-124) and `Bool.validate` only checks `type(v) is bool`,
so `Bool.unpack(bytes([5]))` *returns* `True`: no byte other than 0 and 1
is rejected, and no `UnitDataFormatError` is raised. -/
theorem C8_counterexample : boolUnpack [5] = some true := by decide

/-- **C8 (amended).** `Bool` occupies one byte and `pack` writes `0x00` for
false and `0x01` for true; but `unpack` decodes *any* nonzero byte as true
(`bool(b[0])`) and never fails on a one-byte input: `Bool.validate` checks
only that the decoded value has type `bool`, which is always the case after
decoding, so bytes other than `0x00`/`0x01` are accepted rather than
raising `UnitDataFormatError`. -/
theorem C8_bool_codec (b : Nat) (h2 : 2 ≤ b) (h256 : b < 256) :
    boolUnpack [b] = some true
    ∧ boolPack false = some [0] ∧ boolPack true = some [1]
    ∧ boolUnpack [0] = some false ∧ boolUnpack [1] = some true := by
  have hb : b ≠ 0 := by omega
  refine ⟨?_, rfl, rfl, rfl, rfl⟩
  simp [boolUnpack, hb]

/-- Witness for C8 (amended) at byte 5. -/
theorem C8_bool_codec_witness :
    boolUnpack [5] = some true
    ∧ boolPack false = some [0] ∧ boolPack true = some [1]
    ∧ boolUnpack [0] = some false ∧ boolUnpack [1] = some true :=
  C8_bool_codec 5 (by decide) (by decide)

/-! ## IO layer: self-delimited units in a byte stream (`arf.py` lines 374-473)

The stream is a byte list `bs` with an explicit cursor `pos` (`seek` may
place the cursor past the end, as in Python; reads past the end raise
`UnitDataFormatError`, i.e. `none`).  A unit's wire layout is its pieces'
encodings in `data_spec` order, the first piece being the one-byte typeid.

A piece's layout is described by a `PieceDef`:
* `fixedInt n lo hi` — an `n`-byte little-endian unsigned integer whose
  decoded value must satisfy `lo ≤ v < hi` (the codec's `validate`);
* `boolPiece` — one byte decoded as `bool(b)` (never fails);
* `varData p lo hi` — a `p`-byte length prefix whose decoded length must
  satisfy `lo ≤ l < hi`, followed by `l` raw bytes. -/

inductive PieceDef
  | fixedInt (n lo hi : Nat)
  | boolPiece
  | varData (p lo hi : Nat)
deriving Repr, DecidableEq

inductive PieceVal
  | natV (n : Nat)
  | boolV (b : Bool)
  | bytesV (bs : List Nat)
deriving Repr, DecidableEq

/-- `stream.read(n)` followed by the `len(data) != sz` truncation check of
`ARFIOWrapper._read_data` (lines 391-396). -/
def readBytes (bs : List Nat) : Nat → Nat → Option (List Nat)
  | _, 0 => some []
  | pos, n + 1 =>
      match bs.get? pos with
      | none => none
      | some b =>
          match readBytes bs (pos + 1) n with
          | none => none
          | some rest => some (b :: rest)

/-- Seeking over one unselected piece in `read_next` (lines 423-428): a
fixed-length piece is seeked over without reading; a variable-length piece
first reads and validates its length prefix (`_get_next_piece_length`),
then seeks over the payload. -/
def skipPiece (bs : List Nat) (pos : Nat) : PieceDef → Option Nat
  | .fixedInt n _ _ => some (pos + n)
  | .boolPiece => some (pos + 1)
  | .varData p lo hi =>
      match readBytes bs pos p with
      | none => none
      | some pb =>
          let l := fromLE pb
          if lo ≤ l ∧ l < hi then some (pos + p + l) else none

def skipPieces (bs : List Nat) : Nat → List PieceDef → Option Nat
  | pos, [] => some pos
  | pos, pd :: pds =>
      match skipPiece bs pos pd with
      | none => none
      | some pos2 => skipPieces bs pos2 pds

/-- The deleted-unit tail scan of `read_next` (lines 410-414):
`while self._read_data(Bool): pass` — read one byte at a time, as a Bool
(any nonzero byte is true), until a `0x00` byte.  The loop consumes one
stream byte per iteration, so `bs.length + 1 - pos` steps of fuel make the
recursion structural without changing its result. -/
def skipDelFuel (bs : List Nat) : Nat → Nat → Option Nat
  | 0, _ => none
  | fuel + 1, pos =>
      match bs.get? pos with
      | none => none
      | some b => if b = 0 then some (pos + 1) else skipDelFuel bs fuel (pos + 1)

def skipDel (bs : List Nat) (pos : Nat) : Option Nat :=
  skipDelFuel bs (bs.length + 1 - pos) pos

/-- Reading one selected piece (`_read_data`, lines 391-396): decode, then
validate. -/
def readPiece (bs : List Nat) (pos : Nat) : PieceDef → Option (PieceVal × Nat)
  | .fixedInt n lo hi =>
      match readBytes bs pos n with
      | none => none
      | some db =>
          let v := fromLE db
          if lo ≤ v ∧ v < hi then some (.natV v, pos + n) else none
  | .boolPiece =>
      match bs.get? pos with
      | none => none
      | some b => some (.boolV (b != 0), pos + 1)
  | .varData p lo hi =>
      match readBytes bs pos p with
      | none => none
      | some pb =>
          let l := fromLE pb
          if lo ≤ l ∧ l < hi then
            match readBytes bs (pos + p) l with
            | none => none
            | some db => some (.bytesV db, pos + p + l)
          else none

def readPieces (bs : List Nat) : Nat → List PieceDef → Option (List PieceVal × Nat)
  | pos, [] => some ([], pos)
  | pos, pd :: pds =>
      match readPiece bs pos pd with
      | none => none
      | some (v, pos2) =>
          match readPieces bs pos2 pds with
          | none => none
          | some (vs, e) => some (v :: vs, e)

/-- `ARFIOWrapper.read_next(select=[])`, i.e. `skip_next` (lines 398-438):
read the typeid (a `UnitTypeID`, validated `< 256`); typeid 0 means a
deleted one-byte record; typeid 1 a deleted longer record whose tail is
scanned with Bool reads; otherwise look the typeid up in the spec and seek
over every piece.  Returns `(some typeid, end)` for a live unit and
`(none, end)` for a deleted one. -/
def readNextSkip (spec : Nat → Option (List PieceDef)) (bs : List Nat)
    (pos : Nat) : Option (Option Nat × Nat) :=
  match bs.get? pos with
  | none => none
  | some t =>
      if t < 256 then
        if t = 0 then some (none, pos + 1)
        else if t = 1 then
          match skipDel bs (pos + 1) with
          | none => none
          | some e => some (none, e)
        else
          match spec t with
          | none => none
          | some pds =>
              match skipPieces bs (pos + 1) pds with
              | none => none
              | some e => some (some t, e)
      else none

/-- `ARFIOWrapper.read_next()` with no selection: as `readNextSkip` but
every piece is read, returning the typeid and the decoded pieces. -/
def readNextFull (spec : Nat → Option (List PieceDef)) (bs : List Nat)
    (pos : Nat) : Option (Option (Nat × List PieceVal) × Nat) :=
  match bs.get? pos with
  | none => none
  | some t =>
      if t < 256 then
        if t = 0 then some (none, pos + 1)
        else if t = 1 then
          match skipDel bs (pos + 1) with
          | none => none
          | some e => some (none, e)
        else
          match spec t with
          | none => none
          | some pds =>
              match readPieces bs (pos + 1) pds with
              | none => none
              | some (vs, e) => some (some (t, vs), e)
      else none

/-- `ARFIOWrapper._write_data` (lines 442-449): pack the value (validate
then serialize), and for a variable-length piece emit the length prefix
(packed through the length type, which validates the length) first. -/
def packPieceVal : PieceDef → PieceVal → Option (List Nat)
  | .fixedInt n lo hi, .natV v =>
      if lo ≤ v ∧ v < hi then some (toLE n v) else none
  | .boolPiece, .boolV b => some [if b then 1 else 0]
  | .varData p lo hi, .bytesV d =>
      if lo ≤ d.length ∧ d.length < hi then some (toLE p d.length ++ d) else none
  | _, _ => none

/-- `ARFIOWrapper.write_unit` (lines 451-453): the pieces' encodings in
`data_spec` order (a piece-count mismatch cannot reach here: it is rejected
by `UnitBase.__init__`). -/
def writeUnit : List PieceDef → List PieceVal → Option (List Nat)
  | [], [] => some []
  | pd :: pds, v :: vs =>
      match packPieceVal pd v with
      | none => none
      | some b =>
          match writeUnit pds vs with
          | none => none
          | some rest => some (b ++ rest)
  | _, _ => none

/-- The bytes `delete_next` (lines 460-473) writes over a live record of
`sz` bytes: `0x00` when the record is exactly the typeid byte, otherwise
typeid `0x01`, then `sz - 2` bytes `0x01`, then a terminating `0x00`. -/
def delBytes (sz : Nat) : List Nat :=
  if sz = 1 then [0] else 1 :: (List.replicate (sz - 2) 1 ++ [0])

/-- `ARFIOWrapper.delete_next` (lines 460-473): measure the record by
skipping it, rewind, overwrite it with `delBytes`, leaving the cursor at
the record's end.  An already-deleted record is left untouched (the cursor
still ends past it). -/
def deleteNext (spec : Nat → Option (List PieceDef)) (bs : List Nat)
    (pos : Nat) : Option (List Nat × Nat) :=
  match readNextSkip spec bs pos with
  | none => none
  | some (none, e) => some (bs, e)
  | some (some _, e) =>
      let sz := e - pos
      some (bs.take pos ++ delBytes sz ++ bs.drop (pos + sz), e)

/-! ### The built-in unit catalog (`base_spec`, `arf.py` lines 299-368)

Piece layouts per registered typeid, excluding the leading typeid piece
which `readNext` consumes itself.  `FrameMeta` (typeid 16) is omitted: its
codec `UInt128` sets class attribute `bits` where `UInt` reads
`bit_length`, so no `FrameMeta` piece can be packed or unpacked at all. -/

def u16Piece : PieceDef := .fixedInt 2 0 65536
def u64Piece : PieceDef := .fixedInt 8 0 (2 ^ 64)
def unitTypeIDPiece : PieceDef := .fixedInt 1 0 256
def strandDataPiece : PieceDef := .varData 2 1 513
def strandGroupMagPiece : PieceDef := .fixedInt 1 1 64

def baseSpec : Nat → Option (List PieceDef)
  | 2 => some [u16Piece, u16Piece]
  | 3 => some [.boolPiece]
  | 4 => some [u64Piece]
  | 5 => some [u64Piece, strandGroupMagPiece]
  | 6 => some [u64Piece, strandDataPiece]
  | 7 => some [u64Piece]
  | 8 => some []
  | _ => none

/-- **C7.** Packing a `StrandWriteDataBlock` (typeid 6, pieces
`offset : StrandSize`, `data : StrandData`) with offset 4096 and data
`[1, 2, 3]` produces exactly the 14 bytes
`06 00 10 00 00 00 00 00 00 03 00 01 02 03` — typeid byte, 8-byte
little-endian offset, 2-byte little-endian length prefix, data bytes — and
reading those bytes back yields the pieces `(6, 4096, [1, 2, 3])`. -/
theorem C7_strand_write_data_block_roundtrip :
    writeUnit [unitTypeIDPiece, u64Piece, strandDataPiece]
        [.natV 6, .natV 4096, .bytesV [1, 2, 3]]
      = some [6, 0, 16, 0, 0, 0, 0, 0, 0, 3, 0, 1, 2, 3]
    ∧ readNextFull baseSpec [6, 0, 16, 0, 0, 0, 0, 0, 0, 3, 0, 1, 2, 3] 0
      = some (some (6, [.natV 4096, .bytesV [1, 2, 3]]), 14) := by
  constructor <;> rfl

/-! ### Cursor bounds of the skip operations -/

theorem skipDelFuel_succ_eq (bs : List Nat) (f pos : Nat) :
    skipDelFuel bs (f + 1) pos
      = match bs.get? pos with
        | none => none
        | some b => if b = 0 then some (pos + 1) else skipDelFuel bs f (pos + 1) :=
  rfl

theorem skipPiece_varData_eq (bs : List Nat) (pos p lo hi : Nat) :
    skipPiece bs pos (.varData p lo hi)
      = match readBytes bs pos p with
        | none => none
        | some pb =>
            if lo ≤ fromLE pb ∧ fromLE pb < hi then some (pos + p + fromLE pb)
            else none :=
  rfl

theorem skipPieces_cons_eq (bs : List Nat) (pos : Nat) (pd : PieceDef)
    (pds : List PieceDef) :
    skipPieces bs pos (pd :: pds)
      = match skipPiece bs pos pd with
        | none => none
        | some pos2 => skipPieces bs pos2 pds :=
  rfl

theorem skipPiece_mono {bs : List Nat} {pos pos2 : Nat} {pd : PieceDef}
    (h : skipPiece bs pos pd = some pos2) : pos ≤ pos2 := by
  cases pd with
  | fixedInt n lo hi =>
      have h' : some (pos + n) = some pos2 := h
      injection h' with h'; omega
  | boolPiece =>
      have h' : some (pos + 1) = some pos2 := h
      injection h' with h'; omega
  | varData p lo hi =>
      rw [skipPiece_varData_eq] at h
      cases hrb : readBytes bs pos p with
      | none => rw [hrb] at h; exact absurd h (by simp)
      | some pb =>
          rw [hrb] at h
          dsimp only at h
          split at h
          · injection h with h; omega
          · exact absurd h (by simp)

theorem skipPieces_mono {bs : List Nat} :
    ∀ (pds : List PieceDef) (pos e : Nat),
      skipPieces bs pos pds = some e → pos ≤ e := by
  intro pds
  induction pds with
  | nil =>
      intro pos e h
      have h' : some pos = some e := h
      injection h' with h'; omega
  | cons pd pds ih =>
      intro pos e h
      rw [skipPieces_cons_eq] at h
      cases hsp : skipPiece bs pos pd with
      | none => rw [hsp] at h; exact absurd h (by simp)
      | some pos2 =>
          rw [hsp] at h
          exact le_trans (skipPiece_mono hsp) (ih pos2 e h)

theorem skipDelFuel_lt {bs : List Nat} :
    ∀ (fuel pos e : Nat), skipDelFuel bs fuel pos = some e → pos < e := by
  intro fuel
  induction fuel with
  | zero => intro pos e h; exact absurd h (by simp [skipDelFuel])
  | succ f ih =>
      intro pos e h
      rw [skipDelFuel_succ_eq] at h
      cases hg : bs.get? pos with
      | none => rw [hg] at h; exact absurd h (by simp)
      | some b =>
          rw [hg] at h
          dsimp only at h
          split at h
          · injection h with h; omega
          · have := ih (pos + 1) e h; omega

theorem skipDel_lt {bs : List Nat} {pos e : Nat}
    (h : skipDel bs pos = some e) : pos < e :=
  skipDelFuel_lt _ _ _ h

theorem readNextSkip_eq (spec : Nat → Option (List PieceDef)) (bs : List Nat)
    (pos : Nat) :
    readNextSkip spec bs pos
      = match bs.get? pos with
        | none => none
        | some t =>
            if t < 256 then
              if t = 0 then some (none, pos + 1)
              else if t = 1 then
                match skipDel bs (pos + 1) with
                | none => none
                | some e => some (none, e)
              else
                match spec t with
                | none => none
                | some pds =>
                    match skipPieces bs (pos + 1) pds with
                    | none => none
                    | some e => some (some t, e)
            else none :=
  rfl

/-- Inversion of a successful live-unit skip: the typeid byte, its bounds,
the spec entry and the piece skip. -/
theorem readNextSkip_live_inv {spec : Nat → Option (List PieceDef)}
    {bs : List Nat} {pos t e : Nat}
    (h : readNextSkip spec bs pos = some (some t, e)) :
    bs.get? pos = some t ∧ 2 ≤ t ∧ t < 256
    ∧ ∃ pds, spec t = some pds ∧ skipPieces bs (pos + 1) pds = some e := by
  rw [readNextSkip_eq] at h
  cases hg : bs.get? pos with
  | none => rw [hg] at h; exact absurd h (by simp)
  | some t' =>
      rw [hg] at h
      dsimp only at h
      by_cases h256 : t' < 256
      · rw [if_pos h256] at h
        by_cases h0 : t' = 0
        · rw [if_pos h0] at h; exact absurd h (by simp)
        · rw [if_neg h0] at h
          by_cases h1 : t' = 1
          · rw [if_pos h1] at h
            cases hsd : skipDel bs (pos + 1) with
            | none => rw [hsd] at h; exact absurd h (by simp)
            | some e' => rw [hsd] at h; exact absurd h (by simp)
          · rw [if_neg h1] at h
            cases hspec : spec t' with
            | none => rw [hspec] at h; exact absurd h (by simp)
            | some pds =>
                rw [hspec] at h
                dsimp only at h
                cases hsk : skipPieces bs (pos + 1) pds with
                | none => rw [hsk] at h; exact absurd h (by simp)
                | some e' =>
                    rw [hsk] at h
                    dsimp only at h
                    simp only [Option.some.injEq, Prod.mk.injEq] at h
                    obtain ⟨hte, hee⟩ := h
                    subst hte; subst hee
                    exact ⟨rfl, by omega, h256, pds, hspec, hsk⟩
      · rw [if_neg h256] at h; exact absurd h (by simp)

theorem readNextSkip_lt {spec : Nat → Option (List PieceDef)}
    {bs : List Nat} {pos : Nat} {r : Option Nat} {e : Nat}
    (h : readNextSkip spec bs pos = some (r, e)) : pos < e := by
  rw [readNextSkip_eq] at h
  cases hg : bs.get? pos with
  | none => rw [hg] at h; exact absurd h (by simp)
  | some t =>
      rw [hg] at h
      dsimp only at h
      by_cases h256 : t < 256
      · rw [if_pos h256] at h
        by_cases h0 : t = 0
        · rw [if_pos h0] at h
          simp only [Option.some.injEq, Prod.mk.injEq] at h
          omega
        · rw [if_neg h0] at h
          by_cases h1 : t = 1
          · rw [if_pos h1] at h
            cases hsd : skipDel bs (pos + 1) with
            | none => rw [hsd] at h; exact absurd h (by simp)
            | some e' =>
                rw [hsd] at h
                dsimp only at h
                simp only [Option.some.injEq, Prod.mk.injEq] at h
                have := skipDel_lt hsd; omega
          · rw [if_neg h1] at h
            cases hspec : spec t with
            | none => rw [hspec] at h; exact absurd h (by simp)
            | some pds =>
                rw [hspec] at h
                dsimp only at h
                cases hsk : skipPieces bs (pos + 1) pds with
                | none => rw [hsk] at h; exact absurd h (by simp)
                | some e' =>
                    rw [hsk] at h
                    dsimp only at h
                    simp only [Option.some.injEq, Prod.mk.injEq] at h
                    have := skipPieces_mono pds (pos + 1) e' hsk; omega
      · rw [if_neg h256] at h; exact absurd h (by simp)

theorem delBytes_length {sz : Nat} (h : 1 ≤ sz) : (delBytes sz).length = sz := by
  unfold delBytes
  by_cases h1 : sz = 1
  · simp [h1]
  · rw [if_neg h1]
    simp only [List.length_cons, List.length_append, List.length_replicate]
    simp
    omega

/-! ### Overwriting a record in place -/

/-- Bytes of `bs` after overwriting positions `pos ≤ i < pos + mid.length`
with `mid`. -/
theorem get?_splice (bs mid : List Nat) (pos i : Nat)
    (hpos : pos + mid.length ≤ bs.length) :
    (bs.take pos ++ mid ++ bs.drop (pos + mid.length)).get? i
      = if i < pos then bs.get? i
        else if i < pos + mid.length then mid.get? (i - pos)
        else bs.get? i := by
  have htk : (bs.take pos).length = pos := List.length_take_of_le (by omega)
  have hab : (bs.take pos ++ mid).length = pos + mid.length := by
    rw [List.length_append, htk]
  by_cases h1 : i < pos
  · rw [if_pos h1, List.get?_append (by rw [hab]; omega),
      List.get?_append (by rw [htk]; exact h1)]
    exact List.get?_take h1
  · rw [if_neg h1]
    by_cases h2 : i < pos + mid.length
    · rw [if_pos h2, List.get?_append (by rw [hab]; omega),
        List.get?_append_right (by rw [htk]; omega), htk]
    · rw [if_neg h2]
      rw [List.get?_append_right (by rw [hab]; omega), hab]
      rw [List.get?_drop]
      congr 1
      omega

theorem splice_length (bs mid : List Nat) (pos : Nat)
    (hpos : pos + mid.length ≤ bs.length) :
    (bs.take pos ++ mid ++ bs.drop (pos + mid.length)).length = bs.length := by
  simp only [List.length_append, List.length_take, List.length_drop]
  omega

/-- A run of nonzero Bool bytes followed by a `0x00` terminator is consumed
exactly by the deleted-unit tail scan. -/
theorem skipDelFuel_ones {bs : List Nat} :
    ∀ (k pos fuel : Nat),
      (∀ i, i < k → bs.get? (pos + i) = some 1) →
      bs.get? (pos + k) = some 0 → k + 1 ≤ fuel →
      skipDelFuel bs fuel pos = some (pos + k + 1) := by
  intro k
  induction k with
  | zero =>
      intro pos fuel h1 h0 hf
      obtain ⟨f, rfl⟩ : ∃ f, fuel = f + 1 := ⟨fuel - 1, by omega⟩
      rw [skipDelFuel_succ_eq]
      rw [show pos + 0 = pos by omega] at h0
      rw [h0]
      simp
  | succ k ih =>
      intro pos fuel h1 h0 hf
      obtain ⟨f, rfl⟩ : ∃ f, fuel = f + 1 := ⟨fuel - 1, by omega⟩
      rw [skipDelFuel_succ_eq]
      have hp0 : bs.get? pos = some 1 := by
        have := h1 0 (by omega)
        rwa [Nat.add_zero] at this
      rw [hp0]
      dsimp only
      rw [if_neg (by norm_num)]
      have hrec := ih (pos + 1) f
        (fun i hi => by
          rw [show pos + 1 + i = pos + (i + 1) by omega]
          exact h1 (i + 1) (by omega))
        (by rw [show pos + 1 + k = pos + (k + 1) by omega]; exact h0)
        (by omega)
      rw [hrec]
      congr 1
      omega

/-- Reading a record freshly overwritten with `delBytes` reports it deleted
and leaves the cursor exactly at the record's end. -/
theorem readNextSkip_after_delete {spec : Nat → Option (List PieceDef)}
    {bs : List Nat} {pos s : Nat} (hs : 1 ≤ s)
    (hlen : pos + s ≤ bs.length) :
    readNextSkip spec (bs.take pos ++ delBytes s ++ bs.drop (pos + s)) pos
      = some (none, pos + s) := by
  have hdlen : (delBytes s).length = s := delBytes_length hs
  have hsplice := fun i =>
    get?_splice bs (delBytes s) pos i (by rw [hdlen]; exact hlen)
  rw [hdlen] at hsplice
  set nb := bs.take pos ++ delBytes s ++ bs.drop (pos + s) with hnb
  by_cases h1 : s = 1
  · have hget : nb.get? pos = some 0 := by
      rw [hsplice pos, if_neg (by omega), if_pos (by omega)]
      simp [delBytes, h1]
    rw [readNextSkip_eq, hget]
    dsimp only
    rw [if_pos (by norm_num), if_pos rfl]
    rw [h1]
  · -- s ≥ 2: typeid byte 1, then s-2 bytes of 1, then the 0 terminator
    have hs2 : 2 ≤ s := by omega
    have hget : nb.get? pos = some 1 := by
      rw [hsplice pos, if_neg (by omega), if_pos (by omega), Nat.sub_self]
      simp [delBytes, h1]
    have hmid : ∀ j, j < s - 2 → (delBytes s).get? (1 + j) = some 1 := by
      intro j hj
      simp only [delBytes, if_neg h1]
      rw [show (1 + j) = j + 1 by omega]
      simp only [List.get?_cons_succ]
      rw [List.get?_append (by simp; omega)]
      rw [List.get?_eq_getElem?, List.getElem?_replicate, if_pos hj]
    have hmid0 : (delBytes s).get? (s - 1) = some 0 := by
      simp only [delBytes, if_neg h1]
      rw [show s - 1 = (s - 2) + 1 by omega]
      simp only [List.get?_cons_succ]
      rw [List.get?_append_right (by simp)]
      simp
    have hones : ∀ i, i < s - 2 → nb.get? (pos + 1 + i) = some 1 := by
      intro i hi
      rw [hsplice (pos + 1 + i), if_neg (by omega), if_pos (by omega)]
      rw [show pos + 1 + i - pos = 1 + i by omega]
      exact hmid i hi
    have hzero : nb.get? (pos + 1 + (s - 2)) = some 0 := by
      rw [hsplice _, if_neg (by omega), if_pos (by omega)]
      rw [show pos + 1 + (s - 2) - pos = s - 1 by omega]
      exact hmid0
    have hnblen : nb.length = bs.length := by
      have hsl := splice_length bs (delBytes s) pos (by rw [hdlen]; exact hlen)
      rw [hdlen] at hsl
      exact hsl
    have hsd : skipDel nb (pos + 1) = some (pos + s) := by
      unfold skipDel
      have := @skipDelFuel_ones nb (s - 2) (pos + 1)
        (nb.length + 1 - (pos + 1)) hones hzero (by rw [hnblen]; omega)
      rw [this]
      congr 1
      omega
    rw [readNextSkip_eq, hget]
    dsimp only
    rw [if_pos (by norm_num), if_neg (by norm_num), if_pos rfl, hsd]

theorem readNextFull_eq (spec : Nat → Option (List PieceDef)) (bs : List Nat)
    (pos : Nat) :
    readNextFull spec bs pos
      = match bs.get? pos with
        | none => none
        | some t =>
            if t < 256 then
              if t = 0 then some (none, pos + 1)
              else if t = 1 then
                match skipDel bs (pos + 1) with
                | none => none
                | some e => some (none, e)
              else
                match spec t with
                | none => none
                | some pds =>
                    match readPieces bs (pos + 1) pds with
                    | none => none
                    | some (vs, e) => some (some (t, vs), e)
            else none :=
  rfl

/-- As `readNextSkip_after_delete`, for the piece-reading `read_next` (the
deleted-record branch of `read_next` is the same for every selection). -/
theorem readNextFull_after_delete {spec : Nat → Option (List PieceDef)}
    {bs : List Nat} {pos s : Nat} (hs : 1 ≤ s)
    (hlen : pos + s ≤ bs.length) :
    readNextFull spec (bs.take pos ++ delBytes s ++ bs.drop (pos + s)) pos
      = some (none, pos + s) := by
  have hskip := @readNextSkip_after_delete spec bs pos s hs hlen
  rw [readNextSkip_eq] at hskip
  rw [readNextFull_eq]
  set nb := bs.take pos ++ delBytes s ++ bs.drop (pos + s) with hnb
  cases hget : nb.get? pos with
  | none => rw [hget] at hskip; exact absurd hskip (by simp)
  | some t =>
      rw [hget] at hskip
      dsimp only at hskip ⊢
      by_cases h256 : t < 256
      · rw [if_pos h256] at hskip ⊢
        by_cases h0 : t = 0
        · rw [if_pos h0] at hskip ⊢
          simp only [Option.some.injEq, Prod.mk.injEq] at hskip
          exact congrArg some (by rw [hskip.2])
        · rw [if_neg h0] at hskip ⊢
          by_cases h1 : t = 1
          · rw [if_pos h1] at hskip ⊢
            cases hsd : skipDel nb (pos + 1) with
            | none => rw [hsd] at hskip; exact absurd hskip (by simp)
            | some e =>
                rw [hsd] at hskip
                dsimp only at hskip ⊢
                simp only [Option.some.injEq, Prod.mk.injEq] at hskip
                exact congrArg some (by rw [hskip.2])
          · rw [if_neg h1] at hskip
            cases hspec : spec t with
            | none => rw [hspec] at hskip; exact absurd hskip (by simp)
            | some pds =>
                rw [hspec] at hskip
                dsimp only at hskip
                cases hsk : skipPieces nb (pos + 1) pds with
                | none => rw [hsk] at hskip; exact absurd hskip (by simp)
                | some e => rw [hsk] at hskip; exact absurd hskip (by simp)
      · rw [if_neg h256] at hskip; exact absurd hskip (by simp)

/-! ### Reads depend only on the bytes at and after the cursor -/

theorem readBytes_succ_eq (bs : List Nat) (pos n : Nat) :
    readBytes bs pos (n + 1)
      = match bs.get? pos with
        | none => none
        | some b =>
            match readBytes bs (pos + 1) n with
            | none => none
            | some rest => some (b :: rest) :=
  rfl

theorem readBytes_congr {bs1 bs2 : List Nat} {q : Nat}
    (h : ∀ i, q ≤ i → bs1.get? i = bs2.get? i) :
    ∀ (n pos : Nat), q ≤ pos → readBytes bs1 pos n = readBytes bs2 pos n := by
  intro n
  induction n with
  | zero => intro pos _; rfl
  | succ n ih =>
      intro pos hpos
      rw [readBytes_succ_eq, readBytes_succ_eq, h pos hpos,
        ih (pos + 1) (by omega)]

theorem skipPiece_congr {bs1 bs2 : List Nat} {q : Nat}
    (h : ∀ i, q ≤ i → bs1.get? i = bs2.get? i)
    (pd : PieceDef) (pos : Nat) (hpos : q ≤ pos) :
    skipPiece bs1 pos pd = skipPiece bs2 pos pd := by
  cases pd with
  | fixedInt n lo hi => rfl
  | boolPiece => rfl
  | varData p lo hi =>
      rw [skipPiece_varData_eq, skipPiece_varData_eq,
        readBytes_congr h p pos hpos]

theorem skipPieces_congr {bs1 bs2 : List Nat} {q : Nat}
    (h : ∀ i, q ≤ i → bs1.get? i = bs2.get? i) :
    ∀ (pds : List PieceDef) (pos : Nat), q ≤ pos →
      skipPieces bs1 pos pds = skipPieces bs2 pos pds := by
  intro pds
  induction pds with
  | nil => intro pos _; rfl
  | cons pd pds ih =>
      intro pos hpos
      rw [skipPieces_cons_eq, skipPieces_cons_eq, skipPiece_congr h pd pos hpos]
      cases hsp : skipPiece bs2 pos pd with
      | none => rfl
      | some pos2 =>
          dsimp only
          exact ih pos2 (le_trans hpos (skipPiece_mono hsp))

theorem skipDelFuel_congr {bs1 bs2 : List Nat} {q : Nat}
    (h : ∀ i, q ≤ i → bs1.get? i = bs2.get? i) :
    ∀ (fuel pos : Nat), q ≤ pos →
      skipDelFuel bs1 fuel pos = skipDelFuel bs2 fuel pos := by
  intro fuel
  induction fuel with
  | zero => intro pos _; rfl
  | succ f ih =>
      intro pos hpos
      rw [skipDelFuel_succ_eq, skipDelFuel_succ_eq, h pos hpos]
      cases hg : bs2.get? pos with
      | none => rfl
      | some b =>
          dsimp only
          by_cases hb : b = 0
          · rw [if_pos hb, if_pos hb]
          · rw [if_neg hb, if_neg hb]
            exact ih (pos + 1) (by omega)

theorem skipDel_congr {bs1 bs2 : List Nat} {q : Nat}
    (hlen : bs1.length = bs2.length)
    (h : ∀ i, q ≤ i → bs1.get? i = bs2.get? i)
    (pos : Nat) (hpos : q ≤ pos) : skipDel bs1 pos = skipDel bs2 pos := by
  unfold skipDel
  rw [hlen]
  exact skipDelFuel_congr h _ pos hpos

theorem readPiece_fixedInt_eq (bs : List Nat) (pos n lo hi : Nat) :
    readPiece bs pos (.fixedInt n lo hi)
      = match readBytes bs pos n with
        | none => none
        | some db =>
            if lo ≤ fromLE db ∧ fromLE db < hi then
              some (.natV (fromLE db), pos + n)
            else none :=
  rfl

theorem readPiece_varData_eq (bs : List Nat) (pos p lo hi : Nat) :
    readPiece bs pos (.varData p lo hi)
      = match readBytes bs pos p with
        | none => none
        | some pb =>
            if lo ≤ fromLE pb ∧ fromLE pb < hi then
              match readBytes bs (pos + p) (fromLE pb) with
              | none => none
              | some db => some (.bytesV db, pos + p + fromLE pb)
            else none :=
  rfl

theorem readPiece_mono {bs : List Nat} {pos pos2 : Nat} {pd : PieceDef}
    {v : PieceVal} (h : readPiece bs pos pd = some (v, pos2)) : pos ≤ pos2 := by
  cases pd with
  | fixedInt n lo hi =>
      rw [readPiece_fixedInt_eq] at h
      cases hrb : readBytes bs pos n with
      | none => rw [hrb] at h; exact absurd h (by simp)
      | some db =>
          rw [hrb] at h
          dsimp only at h
          split at h
          · simp only [Option.some.injEq, Prod.mk.injEq] at h; omega
          · exact absurd h (by simp)
  | boolPiece =>
      unfold readPiece at h
      cases hg : bs.get? pos with
      | none => rw [hg] at h; exact absurd h (by simp)
      | some b =>
          rw [hg] at h
          dsimp only at h
          simp only [Option.some.injEq, Prod.mk.injEq] at h; omega
  | varData p lo hi =>
      rw [readPiece_varData_eq] at h
      cases hrb : readBytes bs pos p with
      | none => rw [hrb] at h; exact absurd h (by simp)
      | some pb =>
          rw [hrb] at h
          dsimp only at h
          split at h
          · cases hdb : readBytes bs (pos + p) (fromLE pb) with
            | none => rw [hdb] at h; exact absurd h (by simp)
            | some db =>
                rw [hdb] at h
                simp only [Option.some.injEq, Prod.mk.injEq] at h; omega
          · exact absurd h (by simp)

theorem readPiece_congr {bs1 bs2 : List Nat} {q : Nat}
    (h : ∀ i, q ≤ i → bs1.get? i = bs2.get? i)
    (pd : PieceDef) (pos : Nat) (hpos : q ≤ pos) :
    readPiece bs1 pos pd = readPiece bs2 pos pd := by
  cases pd with
  | fixedInt n lo hi =>
      rw [readPiece_fixedInt_eq, readPiece_fixedInt_eq,
        readBytes_congr h n pos hpos]
  | boolPiece =>
      show (match bs1.get? pos with
            | none => none
            | some b => some (PieceVal.boolV (b != 0), pos + 1))
          = (match bs2.get? pos with
            | none => none
            | some b => some (PieceVal.boolV (b != 0), pos + 1))
      rw [h pos hpos]
  | varData p lo hi =>
      rw [readPiece_varData_eq, readPiece_varData_eq,
        readBytes_congr h p pos hpos]
      cases hpb : readBytes bs2 pos p with
      | none => rfl
      | some pb =>
          dsimp only
          by_cases hc : lo ≤ fromLE pb ∧ fromLE pb < hi
          · rw [if_pos hc, if_pos hc, readBytes_congr h (fromLE pb) (pos + p) (by omega)]
          · rw [if_neg hc, if_neg hc]

theorem readPieces_cons_eq (bs : List Nat) (pos : Nat) (pd : PieceDef)
    (pds : List PieceDef) :
    readPieces bs pos (pd :: pds)
      = match readPiece bs pos pd with
        | none => none
        | some (v, pos2) =>
            match readPieces bs pos2 pds with
            | none => none
            | some (vs, e) => some (v :: vs, e) :=
  rfl

theorem readPieces_congr {bs1 bs2 : List Nat} {q : Nat}
    (h : ∀ i, q ≤ i → bs1.get? i = bs2.get? i) :
    ∀ (pds : List PieceDef) (pos : Nat), q ≤ pos →
      readPieces bs1 pos pds = readPieces bs2 pos pds := by
  intro pds
  induction pds with
  | nil => intro pos _; rfl
  | cons pd pds ih =>
      intro pos hpos
      rw [readPieces_cons_eq, readPieces_cons_eq, readPiece_congr h pd pos hpos]
      cases hrp : readPiece bs2 pos pd with
      | none => rfl
      | some vp =>
          obtain ⟨v, pos2⟩ := vp
          dsimp only
          rw [ih pos2 (le_trans hpos (readPiece_mono hrp))]

theorem readNextSkip_congr {bs1 bs2 : List Nat} {q : Nat}
    (hlen : bs1.length = bs2.length)
    (h : ∀ i, q ≤ i → bs1.get? i = bs2.get? i)
    (spec : Nat → Option (List PieceDef)) (pos : Nat) (hpos : q ≤ pos) :
    readNextSkip spec bs1 pos = readNextSkip spec bs2 pos := by
  rw [readNextSkip_eq, readNextSkip_eq, h pos hpos]
  cases hg : bs2.get? pos with
  | none => rfl
  | some t =>
      dsimp only
      by_cases h256 : t < 256
      · rw [if_pos h256, if_pos h256]
        by_cases h0 : t = 0
        · rw [if_pos h0, if_pos h0]
        · rw [if_neg h0, if_neg h0]
          by_cases h1 : t = 1
          · rw [if_pos h1, if_pos h1, skipDel_congr hlen h (pos + 1) (by omega)]
          · rw [if_neg h1, if_neg h1]
            cases hspec : spec t with
            | none => rfl
            | some pds =>
                dsimp only
                rw [skipPieces_congr h pds (pos + 1) (by omega)]
      · rw [if_neg h256, if_neg h256]

theorem readNextFull_congr {bs1 bs2 : List Nat} {q : Nat}
    (hlen : bs1.length = bs2.length)
    (h : ∀ i, q ≤ i → bs1.get? i = bs2.get? i)
    (spec : Nat → Option (List PieceDef)) (pos : Nat) (hpos : q ≤ pos) :
    readNextFull spec bs1 pos = readNextFull spec bs2 pos := by
  rw [readNextFull_eq, readNextFull_eq, h pos hpos]
  cases hg : bs2.get? pos with
  | none => rfl
  | some t =>
      dsimp only
      by_cases h256 : t < 256
      · rw [if_pos h256, if_pos h256]
        by_cases h0 : t = 0
        · rw [if_pos h0, if_pos h0]
        · rw [if_neg h0, if_neg h0]
          by_cases h1 : t = 1
          · rw [if_pos h1, if_pos h1, skipDel_congr hlen h (pos + 1) (by omega)]
          · rw [if_neg h1, if_neg h1]
            cases hspec : spec t with
            | none => rfl
            | some pds =>
                dsimp only
                rw [readPieces_congr h pds (pos + 1) (by omega)]
      · rw [if_neg h256, if_neg h256]

/-! ### Claim C2: in-place deletion -/

/-- **C2.** For every stored live record of size `s = e - pos` bytes (a
record `readNextSkip` successfully skips, ending at cursor `e`),
`delete_next`:
overwrites the record's bytes with exactly `0x00` when `s = 1` and with
`0x01`, `s - 2` bytes of `0x01` and a terminating `0x00` otherwise,
preserving the record size (and every byte outside the record); leaves the
stream cursor exactly `s` bytes past the record's start; a subsequent
`read_next` of that record reports it deleted (returns `None`) with the
cursor again ending at `e`; and every subsequent record — any read from a
position `q ≥ e` — decodes exactly as before. -/
theorem C2_delete_next (spec : Nat → Option (List PieceDef)) (bs : List Nat)
    (pos t e q : Nat)
    (hr : readNextSkip spec bs pos = some (some t, e))
    (hlen : e ≤ bs.length) (hq : e ≤ q) :
    deleteNext spec bs pos
      = some (bs.take pos ++ delBytes (e - pos) ++ bs.drop e, e)
    ∧ delBytes (e - pos)
      = (if e - pos = 1 then [0]
         else 1 :: (List.replicate (e - pos - 2) 1 ++ [0]))
    ∧ (bs.take pos ++ delBytes (e - pos) ++ bs.drop e).length = bs.length
    ∧ readNextSkip spec (bs.take pos ++ delBytes (e - pos) ++ bs.drop e) pos
        = some (none, e)
    ∧ readNextFull spec (bs.take pos ++ delBytes (e - pos) ++ bs.drop e) pos
        = some (none, e)
    ∧ (bs.take pos ++ delBytes (e - pos) ++ bs.drop e).drop e = bs.drop e
    ∧ readNextSkip spec (bs.take pos ++ delBytes (e - pos) ++ bs.drop e) q
        = readNextSkip spec bs q
    ∧ readNextFull spec (bs.take pos ++ delBytes (e - pos) ++ bs.drop e) q
        = readNextFull spec bs q := by
  have hlt : pos < e := readNextSkip_lt hr
  have hs : 1 ≤ e - pos := by omega
  have hpe : pos + (e - pos) = e := by omega
  have hdlen : (delBytes (e - pos)).length = e - pos := delBytes_length hs
  have habl : (bs.take pos ++ delBytes (e - pos)).length = e := by
    rw [List.length_append, List.length_take_of_le (by omega), hdlen]
    omega
  have hnblen : (bs.take pos ++ delBytes (e - pos) ++ bs.drop e).length
      = bs.length := by
    have hsl := splice_length bs (delBytes (e - pos)) pos
      (by rw [hdlen, hpe]; exact hlen)
    rw [hdlen, hpe] at hsl
    exact hsl
  have hdrop : (bs.take pos ++ delBytes (e - pos) ++ bs.drop e).drop e
      = bs.drop e := List.drop_left' habl
  have hagree : ∀ i, e ≤ i →
      (bs.take pos ++ delBytes (e - pos) ++ bs.drop e).get? i = bs.get? i := by
    intro i hi
    have hg := get?_splice bs (delBytes (e - pos)) pos i
      (by rw [hdlen, hpe]; exact hlen)
    rw [hdlen, hpe] at hg
    rw [hg, if_neg (by omega), if_neg (by omega)]
  have hskipdel : readNextSkip spec
      (bs.take pos ++ delBytes (e - pos) ++ bs.drop e) pos
      = some (none, e) := by
    have h := @readNextSkip_after_delete spec bs pos (e - pos) hs (by omega)
    rw [hpe] at h
    exact h
  have hfulldel : readNextFull spec
      (bs.take pos ++ delBytes (e - pos) ++ bs.drop e) pos
      = some (none, e) := by
    have h := @readNextFull_after_delete spec bs pos (e - pos) hs (by omega)
    rw [hpe] at h
    exact h
  refine ⟨?_, rfl, hnblen, hskipdel, hfulldel, hdrop,
    readNextSkip_congr hnblen hagree spec q hq,
    readNextFull_congr hnblen hagree spec q hq⟩
  unfold deleteNext
  rw [hr]
  dsimp only
  rw [hpe]

/-- Demo stream for the C2 witness: a `StrandWriteDataBlock`
(typeid 6, offset 4096, data `[1,2,3]`; 14 bytes) followed by a
`StrandCreate` (typeid 7, size 10; 9 bytes). -/
def demoC2Bytes : List Nat :=
  [6, 0, 16, 0, 0, 0, 0, 0, 0, 3, 0, 1, 2, 3,
   7, 10, 0, 0, 0, 0, 0, 0, 0]

/-- Witness for C2: deleting the 14-byte first record of `demoC2Bytes`. -/
theorem C2_delete_next_witness :
    readNextSkip baseSpec demoC2Bytes 0 = some (some 6, 14)
    ∧ (deleteNext baseSpec demoC2Bytes 0
        = some (demoC2Bytes.take 0 ++ delBytes (14 - 0) ++ demoC2Bytes.drop 14, 14)
      ∧ delBytes (14 - 0)
        = (if 14 - 0 = 1 then [0]
           else 1 :: (List.replicate (14 - 0 - 2) 1 ++ [0]))
      ∧ (demoC2Bytes.take 0 ++ delBytes (14 - 0) ++ demoC2Bytes.drop 14).length
          = demoC2Bytes.length
      ∧ readNextSkip baseSpec
          (demoC2Bytes.take 0 ++ delBytes (14 - 0) ++ demoC2Bytes.drop 14) 0
          = some (none, 14)
      ∧ readNextFull baseSpec
          (demoC2Bytes.take 0 ++ delBytes (14 - 0) ++ demoC2Bytes.drop 14) 0
          = some (none, 14)
      ∧ (demoC2Bytes.take 0 ++ delBytes (14 - 0) ++ demoC2Bytes.drop 14).drop 14
          = demoC2Bytes.drop 14
      ∧ readNextSkip baseSpec
          (demoC2Bytes.take 0 ++ delBytes (14 - 0) ++ demoC2Bytes.drop 14) 14
          = readNextSkip baseSpec demoC2Bytes 14
      ∧ readNextFull baseSpec
          (demoC2Bytes.take 0 ++ delBytes (14 - 0) ++ demoC2Bytes.drop 14) 14
          = readNextFull baseSpec demoC2Bytes 14) :=
  ⟨by rfl,
   C2_delete_next baseSpec demoC2Bytes 0 6 14 14 (by rfl) (by decide) (by decide)⟩

/-! ## MemoryOnlyStorage (`selfdelimitedblob.py` lines 45-89)

The memory-only storage backend: a monotonically increasing counter and an
insertion-ordered mapping `store_id → blob`. -/

structure MemoryOnlyStorage where
  ctr : Nat
  store : List (Nat × List Nat)
deriving Repr, DecidableEq

namespace MemoryOnlyStorage

/-- `append` (lines 52-57): bump `self.ctr`, store the blob under the new
id, return the id (first id is 1). -/
def append (s : MemoryOnlyStorage) (blob : List Nat) :
    MemoryOnlyStorage × Nat :=
  (⟨s.ctr + 1, s.store ++ [(s.ctr + 1, blob)]⟩, s.ctr + 1)

/-- `discard` (lines 59-62): `if id not in self.store: raise ValueError()`,
then `del self.store[id]`. -/
def discard (s : MemoryOnlyStorage) (k : Nat) : Option MemoryOnlyStorage :=
  if (s.store.lookup k).isSome then
    some ⟨s.ctr, s.store.filter (fun p => p.1 != k)⟩
  else none

end MemoryOnlyStorage

theorem lookup_filter_ne (k : Nat) :
    ∀ (l : List (Nat × List Nat)),
      (l.filter (fun p => p.1 != k)).lookup k = none := by
  intro l
  induction l with
  | nil => rfl
  | cons a t ih =>
      obtain ⟨a1, a2⟩ := a
      by_cases h : a1 = k
      · simp only [List.filter_cons]
        rw [if_neg (by simp [h])]
        exact ih
      · simp only [List.filter_cons]
        rw [if_pos (by simp [h])]
        have hbe : (k == a1) = false := by simp [Ne.symm h]
        simp only [List.lookup, hbe]
        exact ih

/-- Counterexample to C9 as stated: append one record, discard it, discard
it again — the second `discard` raises `ValueError`
(`if id not in self.store: raise ValueError()`), it is not a no-op. -/
theorem C9_counterexample :
    MemoryOnlyStorage.discard ⟨1, [(1, [42])]⟩ 1
      = some ⟨1, ([] : List (Nat × List Nat))⟩
    ∧ MemoryOnlyStorage.discard ⟨1, ([] : List (Nat × List Nat))⟩ 1 = none := by
  constructor <;> rfl

/-- **C9 (amended).** Storage discard is *not* idempotent: after a
successful `discard(id)`, the id is gone from `self.store`, and calling
`discard(id)` again raises `ValueError` (rather than being a no-op). -/
theorem C9_discard_again_raises (s s' : MemoryOnlyStorage) (k : Nat)
    (h : MemoryOnlyStorage.discard s k = some s') :
    MemoryOnlyStorage.discard s' k = none := by
  unfold MemoryOnlyStorage.discard at h
  split at h
  · injection h with h
    subst h
    unfold MemoryOnlyStorage.discard
    rw [if_neg (by rw [lookup_filter_ne]; simp)]
  · exact absurd h (by simp)

/-- Witness for C9 (amended) on a one-record store. -/
theorem C9_discard_again_raises_witness :
    MemoryOnlyStorage.discard ⟨1, ([] : List (Nat × List Nat))⟩ 1 = none :=
  C9_discard_again_raises ⟨1, [(1, [42])]⟩ ⟨1, []⟩ 1 (by rfl)

/-! ## Content, occlusion tests and `merge_in` (`arf.py` lines 969-1187)

A `Content` is modelled by its subjects, each a `SubjectWithContext`
summary carrying exactly the data the occlusion tests consume.  The
subject list is kept in the content order in which `Content.__iter__`
yields it. -/

/-- The TX subject types (`StrandCreate`, `StrandWriteDataBlock`,
`StrandDiscard`). -/
inductive SubjectType
  | strandCreate
  | strandWriteDataBlock
  | strandDiscard
deriving Repr, DecidableEq

/-- A `SubjectWithContext` (lines 969-1011) as the occlusion tests consume
it: the subject's store id and type, its selected strand (`self.strand`,
from the bound `StrandSelect`; Create/Write), its `offset` piece (Write),
its `strd-size-bytes` piece (Create), and `discard_strands` = `[dLo, dHi)`
(the range of the bound `StrandGroupSelect`; Discard).  As in the Python,
only the fields applicable to `type` are ever consulted. -/
structure SubjCtx where
  storeId : Nat
  type : SubjectType
  strand : Nat
  offset : Nat
  sizeBytes : Nat
  dLo : Nat
  dHi : Nat
deriving Repr, DecidableEq

/-- The registered occlusion tests (lines 1045-1073), combined through the
registry's subclass dispatch (`OcclusionTests.__getitem__`, lines
1035-1043, `any` over all matching tests):
`(StrandDiscard, object)` — always occluded;
`(StrandCreate, StrandDiscard)`, `(StrandWriteDataBlock, StrandDiscard)` —
`rear.strand in fore.discard_strands`;
`(StrandWriteDataBlock, StrandWriteDataBlock)` — same offset, same strand;
`(StrandCreate, StrandCreate)` — same strand;
`(StrandWriteDataBlock, StrandCreate)` — same strand and
`rear.offset <= fore.strd-size-bytes`; no other pair has a test. -/
def occTest (rear fore : SubjCtx) : Bool :=
  match rear.type, fore.type with
  | .strandDiscard, _ => true
  | .strandCreate, .strandDiscard =>
      decide (fore.dLo ≤ rear.strand) && decide (rear.strand < fore.dHi)
  | .strandWriteDataBlock, .strandDiscard =>
      decide (fore.dLo ≤ rear.strand) && decide (rear.strand < fore.dHi)
  | .strandWriteDataBlock, .strandWriteDataBlock =>
      decide (rear.offset = fore.offset) && decide (rear.strand = fore.strand)
  | .strandCreate, .strandCreate => decide (rear.strand = fore.strand)
  | .strandWriteDataBlock, .strandCreate =>
      decide (rear.strand = fore.strand) && decide (rear.offset ≤ fore.sizeBytes)
  | .strandCreate, .strandWriteDataBlock => false

/-- `Content._calc_occlusions_single` (lines 1155-1163): walk this
content's subjects in content order, stopping at the fore subject itself;
yield each rear passing a registered test against `fore`. -/
def calcOcclusionsSingle (selfSubjs : List SubjCtx) (fore : SubjCtx) :
    List Nat :=
  match selfSubjs with
  | [] => []
  | r :: rest =>
      if r.storeId = fore.storeId then []
      else if occTest r fore then r.storeId :: calcOcclusionsSingle rest fore
      else calcOcclusionsSingle rest fore

/-- The deduplicating accumulation of `calc_occlusions` over one fore
subject's results (lines 1148-1153). -/
def dedupAppend (acc l : List Nat) : List Nat :=
  l.foldl (fun a o => if o ∈ a then a else a ++ [o]) acc

/-- `Content.calc_occlusions(fore)` for a fore Content (lines 1132-1153):
the store ids of all subjects of `self` occluded by some subject of
`fore`, deduplicated in discovery order. -/
def calcOcclusions (selfSubjs foreSubjs : List SubjCtx) : List Nat :=
  foreSubjs.foldl
    (fun acc f => dedupAppend acc (calcOcclusionsSingle selfSubjs f)) []

/-- `Content.__init__` (lines 1078-1092) rejects a unit set with internal
occlusions: `for _ in self.calc_occlusions(self): raise ValueError(...)`. -/
def contentValid (subjs : List SubjCtx) : Bool :=
  decide (calcOcclusions subjs subjs = [])

/-- `Content.merge_in(other)` (lines 1173-1187): compute the subjects of
`self` occluded by `other`, discard them from storage — whereupon the
perishable indexes drop them — then add `other`'s units into `self`'s
indexes.  Result: the merged subject list and the discarded store ids. -/
def mergeIn (selfSubjs otherSubjs : List SubjCtx) : List SubjCtx × List Nat :=
  let occ := calcOcclusions selfSubjs otherSubjs
  (selfSubjs.filter (fun r => decide (r.storeId ∉ occ)) ++ otherSubjs, occ)

/-- Demo for the C5 counterexample: one transaction that creates strand 5
(size 10) and then writes 3 bytes at offset 3 of it — a perfectly ordinary
transaction, and a valid `Content`. -/
def c5CreateSubj : SubjCtx := ⟨1, .strandCreate, 5, 0, 10, 0, 0⟩

def c5WriteSubj : SubjCtx := ⟨2, .strandWriteDataBlock, 5, 3, 0, 0, 0⟩

/-- Counterexample to C5 as stated: merge `other` = {Create(strand 5, size
10), Write(strand 5, offset 3)} into an empty committed Content.  After
`merge_in`, the Write subject is in the merged content and the Create
subject is in `other`, and the pair (rear = Write, fore = Create) *does*
satisfy the registered `(StrandWriteDataBlock, StrandCreate)` occlusion
test (same strand, offset 3 ≤ size 10).  The claim's quantification lets
`rear` range over all of the merged content — which includes `other`'s own
subjects — so it is false; only pairs with `rear` among the *retained
original* subjects are cleared. -/
theorem C5_counterexample :
    contentValid [c5CreateSubj, c5WriteSubj] = true
    ∧ contentValid [] = true
    ∧ mergeIn [] [c5CreateSubj, c5WriteSubj] = ([c5CreateSubj, c5WriteSubj], [])
    ∧ c5WriteSubj ∈ (mergeIn [] [c5CreateSubj, c5WriteSubj]).1
    ∧ c5CreateSubj ∈ [c5CreateSubj, c5WriteSubj]
    ∧ occTest c5WriteSubj c5CreateSubj = true := by
  decide

theorem mem_calcOcclusionsSingle {fore rear : SubjCtx} :
    ∀ {s : List SubjCtx},
      (∀ r ∈ s, r.storeId ≠ fore.storeId) → rear ∈ s →
      occTest rear fore = true → rear.storeId ∈ calcOcclusionsSingle s fore := by
  intro s
  induction s with
  | nil => intro _ hmem _; cases hmem
  | cons r rest ih =>
      intro hne hmem ht
      unfold calcOcclusionsSingle
      rw [if_neg (hne r (List.mem_cons_self r rest))]
      rcases List.mem_cons.mp hmem with hre | hmem2
      · subst hre
        rw [if_pos ht]
        exact List.mem_cons_self _ _
      · have hrec := ih (fun x hx => hne x (List.mem_cons_of_mem r hx)) hmem2 ht
        by_cases hro : occTest r fore = true
        · rw [if_pos hro]
          exact List.mem_cons_of_mem _ hrec
        · rw [if_neg hro]
          exact hrec

theorem mem_dedupAppend_left {a : Nat} :
    ∀ {l acc : List Nat}, a ∈ acc → a ∈ dedupAppend acc l := by
  intro l
  induction l with
  | nil => intro acc h; exact h
  | cons o t ih =>
      intro acc h
      show a ∈ dedupAppend (if o ∈ acc then acc else acc ++ [o]) t
      by_cases ho : o ∈ acc
      · rw [if_pos ho]; exact ih h
      · rw [if_neg ho]; exact ih (List.mem_append_left _ h)

theorem mem_dedupAppend_right {a : Nat} :
    ∀ {l acc : List Nat}, a ∈ l → a ∈ dedupAppend acc l := by
  intro l
  induction l with
  | nil => intro acc h; cases h
  | cons o t ih =>
      intro acc h
      show a ∈ dedupAppend (if o ∈ acc then acc else acc ++ [o]) t
      rcases List.mem_cons.mp h with rfl | ht
      · by_cases ho : a ∈ acc
        · rw [if_pos ho]; exact mem_dedupAppend_left ho
        · rw [if_neg ho]
          exact mem_dedupAppend_left (List.mem_append_right _ (List.mem_singleton.mpr rfl))
      · exact ih ht

theorem mem_foldl_dedup {o : Nat} {s : List SubjCtx} :
    ∀ {f : List SubjCtx} {acc : List Nat}, o ∈ acc →
      o ∈ f.foldl (fun acc x => dedupAppend acc (calcOcclusionsSingle s x)) acc := by
  intro f
  induction f with
  | nil => intro acc h; exact h
  | cons x t ih => intro acc h; exact ih (mem_dedupAppend_left h)

theorem mem_calcOcclusions {o : Nat} {s : List SubjCtx} {fore : SubjCtx} :
    ∀ {f : List SubjCtx} {acc : List Nat}, fore ∈ f →
      o ∈ calcOcclusionsSingle s fore →
      o ∈ f.foldl (fun acc x => dedupAppend acc (calcOcclusionsSingle s x)) acc := by
  intro f
  induction f with
  | nil => intro acc h; cases h
  | cons x t ih =>
      intro acc hf ho
      rcases List.mem_cons.mp hf with rfl | hft
      · show o ∈ t.foldl (fun acc x => dedupAppend acc (calcOcclusionsSingle s x))
            (dedupAppend acc (calcOcclusionsSingle s fore))
        exact mem_foldl_dedup (mem_dedupAppend_right ho)
      · show o ∈ t.foldl (fun acc x => dedupAppend acc (calcOcclusionsSingle s x))
            (dedupAppend acc (calcOcclusionsSingle s x))
        exact ih hft ho

/-- **C5 (amended).** After `Content.merge_in(other)`, no pair
`(rear, fore)` with `rear` a subject of the *original* content that
remains after the merge (i.e. not discarded as occluded) and `fore` a
subject of `other` satisfies any registered occlusion test — every such
occluded subject has been discarded from storage and dropped from the
indexes.  (Subject store ids of the two contents are distinct, as they are
distinct records of one shared storage; the claim's stronger form, with
`rear` ranging over all of the merged content including `other` itself, is
refuted by the counterexample.) -/
theorem C5_merge_in_clears_occlusions
    (selfSubjs otherSubjs : List SubjCtx) (rear fore : SubjCtx)
    (hdisj : ∀ r ∈ selfSubjs, ∀ f ∈ otherSubjs, r.storeId ≠ f.storeId)
    (hrear : rear ∈ selfSubjs)
    (hkept : rear.storeId ∉ (mergeIn selfSubjs otherSubjs).2)
    (hfore : fore ∈ otherSubjs) :
    occTest rear fore = false := by
  by_cases ht : occTest rear fore = true
  · exfalso
    apply hkept
    show rear.storeId ∈ calcOcclusions selfSubjs otherSubjs
    exact mem_calcOcclusions hfore
      (mem_calcOcclusionsSingle (fun r hr => hdisj r hr fore hfore) hrear ht)
  · exact Bool.not_eq_true _ ▸ (by revert ht; cases occTest rear fore <;> simp)

/-- Witness for C5 (amended): a committed write at offset 3 survives a
merge with a write at offset 7 on the same strand, and indeed no occlusion
test relates the surviving pair. -/
theorem C5_merge_in_clears_occlusions_witness :
    occTest ⟨1, SubjectType.strandWriteDataBlock, 5, 3, 0, 0, 0⟩
      ⟨2, SubjectType.strandWriteDataBlock, 5, 7, 0, 0, 0⟩ = false :=
  C5_merge_in_clears_occlusions
    [⟨1, SubjectType.strandWriteDataBlock, 5, 3, 0, 0, 0⟩]
    [⟨2, SubjectType.strandWriteDataBlock, 5, 7, 0, 0, 0⟩]
    ⟨1, SubjectType.strandWriteDataBlock, 5, 3, 0, 0, 0⟩
    ⟨2, SubjectType.strandWriteDataBlock, 5, 7, 0, 0, 0⟩
    (by decide) (by decide) (by decide) (by decide)

/-! ## Mapper: scan state, `_map_unit` and `sync` (`arf.py` lines 490-767)

Storage is modelled at the unit level: the log is the list of live units in
append order, the unit at 0-based position `i` having store id `i + 1`
(`MemoryOnlyStorage` ids start at 1). -/

/-- The built-in unit catalog as the mapper classifies it. `marker` is the
GLOBAL `TxScopeMarker`; `finalize`, `select` and `groupSelect` are the TX
modifiers, in registration order (the order of `ARFSpec.txmods`, which
fixes the modifier-id layout); `writeBlock`, `createU` and `discardU` are
the TX subjects; `frameMeta` is the remaining GLOBAL type. -/
inductive UnitD
  | marker (prevTxs nextTxs : Nat)
  | finalize (isCommit : Bool)
  | select (strdId : Nat)
  | groupSelect (strdGroup strdGroupMag : Nat)
  | writeBlock (offset : Nat) (dataLen : Nat)
  | createU (strdSizeBytes : Nat)
  | discardU
  | frameMeta (streamOffset : Nat)
deriving Repr, DecidableEq

/-- `issubclass(ut, TXUnit)`. -/
def isTX : UnitD → Bool
  | .marker _ _ => false
  | .frameMeta _ => false
  | _ => true

/-- Position of a TX modifier type in `ARFSpec.txmods`
(`[TxScopeFinalize, StrandSelect, StrandGroupSelect]`), `none` for
non-modifier types. -/
def modIdxOf : UnitD → Option Nat
  | .finalize _ => some 0
  | .select _ => some 1
  | .groupSelect _ _ => some 2
  | _ => none

/-- `UnitInfo.mod_assoc`: nothing for GLOBAL units, the assigned modifier
id for a TX modifier, the snapshot of the next-modifier-id vector for a TX
subject. -/
inductive Assoc
  | noAssoc
  | modId (n : Nat)
  | snap (finNext selNext grpNext : Nat)
deriving Repr, DecidableEq

/-- A mapped unit's `UnitInfo` (lines 492-596): store id, owning
transaction scope (`txs`, `none` for GLOBAL units), the unit, and the
modifier-associativity data. -/
structure Info where
  storeId : Nat
  txs : Option Nat
  unit : UnitD
  modAssoc : Assoc
deriving Repr, DecidableEq

/-- Mapper scan state: `cur_txscope` (initially `None`) and
`mod_next_ids_per_txs`, a defaultdict mapping each txs to a `[0,0,0]`
vector indexed by modifier-type position (modelled as a total function,
zero by default). -/
structure MState where
  cur : Option Nat
  modNext : Nat → Nat → Nat

def initState : MState := ⟨none, fun _ _ => 0⟩

/-- `TxScopeFinalize` handling in `_map_unit` (lines 682-684): bump every
modifier next-id of scope `T`. -/
def bumpAll (st : MState) (T : Nat) : MState :=
  { st with modNext := fun txs i =>
      if txs = T then st.modNext txs i + 1 else st.modNext txs i }

/-- Ordinary TX-modifier handling in `_map_unit` (lines 685-687): bump the
next-id of scope `T` at the modifier type's own position `j`. -/
def bumpAt (st : MState) (T j : Nat) : MState :=
  { st with modNext := fun txs i =>
      if txs = T ∧ i = j then st.modNext txs i + 1 else st.modNext txs i }

theorem bumpAll_modNext_same (st : MState) (T k : Nat) :
    (bumpAll st T).modNext T k = st.modNext T k + 1 := by
  show (if T = T then st.modNext T k + 1 else st.modNext T k) = _
  rw [if_pos rfl]

theorem bumpAll_modNext_other (st : MState) {T T2 : Nat} (k : Nat)
    (h : T2 ≠ T) : (bumpAll st T).modNext T2 k = st.modNext T2 k := by
  show (if T2 = T then st.modNext T2 k + 1 else st.modNext T2 k) = _
  rw [if_neg h]

theorem bumpAt_modNext_same (st : MState) (T j : Nat) :
    (bumpAt st T j).modNext T j = st.modNext T j + 1 := by
  show (if T = T ∧ j = j then st.modNext T j + 1 else st.modNext T j) = _
  rw [if_pos ⟨rfl, rfl⟩]

theorem bumpAt_modNext_other (st : MState) {T j : Nat} (T2 k : Nat)
    (h : ¬(T2 = T ∧ k = j)) :
    (bumpAt st T j).modNext T2 k = st.modNext T2 k := by
  show (if T2 = T ∧ k = j then st.modNext T2 k + 1 else st.modNext T2 k) = _
  rw [if_neg h]

/-- `ARFMapper._map_unit` (lines 669-687) with `UnitInfo.__init__` (lines
569-592) for one scanned unit: construct the `UnitInfo` — asserting that a
TX unit has an open scope — then update the state: a `TxScopeMarker`
asserts `prev-txs == cur_txscope` and adopts `next-txs`; a
`TxScopeFinalize` records its own pre-bump next-id and bumps *every*
modifier next-id of the scope; any other TX modifier records its pre-bump
next-id and bumps only its own slot; a TX subject snapshots the vector
(line 590 spells the snapshot source `txsmod_ids` for `txmod_ids`, an
obvious slip).  A failing assert raises, i.e. `none`. -/
def mapUnitStep (st : MState) (sid : Nat) (u : UnitD) :
    Option (MState × Info) :=
  match u with
  | .marker p n =>
      if st.cur = some p then
        some ({ st with cur := some n }, ⟨sid, none, u, .noAssoc⟩)
      else none
  | .frameMeta _ => some (st, ⟨sid, none, u, .noAssoc⟩)
  | .finalize _ =>
      match st.cur with
      | none => none
      | some T =>
          some (bumpAll st T, ⟨sid, some T, u, .modId (st.modNext T 0)⟩)
  | .select _ =>
      match st.cur with
      | none => none
      | some T =>
          some (bumpAt st T 1, ⟨sid, some T, u, .modId (st.modNext T 1)⟩)
  | .groupSelect _ _ =>
      match st.cur with
      | none => none
      | some T =>
          some (bumpAt st T 2, ⟨sid, some T, u, .modId (st.modNext T 2)⟩)
  | .writeBlock _ _ =>
      match st.cur with
      | none => none
      | some T =>
          some (st, ⟨sid, some T, u,
            .snap (st.modNext T 0) (st.modNext T 1) (st.modNext T 2)⟩)
  | .createU _ =>
      match st.cur with
      | none => none
      | some T =>
          some (st, ⟨sid, some T, u,
            .snap (st.modNext T 0) (st.modNext T 1) (st.modNext T 2)⟩)
  | .discardU =>
      match st.cur with
      | none => none
      | some T =>
          some (st, ⟨sid, some T, u,
            .snap (st.modNext T 0) (st.modNext T 1) (st.modNext T 2)⟩)

/-- Mapping a consecutive run of storage ids (`_map_unit` per scanned
unit). -/
def mapRun : MState → Nat → List UnitD → Option (MState × List Info)
  | st, _, [] => some (st, [])
  | st, sid, u :: us =>
      match mapUnitStep st sid u with
      | none => none
      | some (st1, i) =>
          match mapRun st1 (sid + 1) us with
          | none => none
          | some (st2, is) => some (st2, i :: is)

/-- Phase B's scan-ahead (lines 704-714): the `prev-txs` piece of the
first `TxScopeMarker`, if any.  (Line 711 assigns the one-element list
returned by `read(select=['prev-txs'])` where its element is meant — an
obvious slip, embedded as the element.) -/
def findMarkerPrev : List UnitD → Option Nat
  | [] => none
  | .marker p _ :: _ => some p
  | _ :: rest => findMarkerPrev rest

/-- `ARFMapper._sync_gen_func` (lines 689-720), run to quiescence over
`log` (each `sync()` resumes the generator until its read iterator is
exhausted, i.e. until the scan has caught up with storage):

* Phase A maps forward while units are not TX units.  `TxScopeMarker` is
  *not* a TX unit, so phase A does not stop at it: the marker is mapped,
  and its `prev-txs == cur_txscope` assert compares an integer against the
  initial `None` scope and fails (claim C4).
* Phase B skims the remainder for the first marker and adopts its
  `prev-txs` as `cur_txscope` without mapping anything; with no marker the
  scan idles there.
* The main loop maps every remaining unit from after phase A's last
  mapped id — including TX units that precede the found marker.

Store ids are 1-based positions in `log`. -/
def syncAll (log : List UnitD) : Option (List Info) :=
  match mapRun initState 1 (log.takeWhile (fun u => !isTX u)) with
  | none => none
  | some (stA, infosA) =>
      match log.dropWhile (fun u => !isTX u) with
      | [] => some infosA
      | _ =>
          match findMarkerPrev (log.dropWhile (fun u => !isTX u)) with
          | none => some infosA
          | some p =>
              match mapRun { stA with cur := some p }
                  ((log.takeWhile (fun u => !isTX u)).length + 1)
                  (log.dropWhile (fun u => !isTX u)) with
              | none => none
              | some (_, infosC) => some (infosA ++ infosC)

/-- **C4 (code bug).** The claim — after a `TxScopeMarker` is scanned,
`cur_txscope` equals its `next-txs` — describes the intended design (and
the spec's §4.5 phase description), but the code cannot establish it:
phase A of `_sync_gen_func` stops only at TX units, and `TxScopeMarker` is
not a TX unit, so the first marker of any log is mapped by phase A while
`cur_txscope` is still `None`; `_map_unit`'s
`assert prev_txs == self.cur_txscope` then compares an integer with `None`
and the scan aborts with `AssertionError`.  The phase-B bootstrap that was
written to adopt the first marker's scope (lines 704-714) is unreachable
for such logs.  Evaluated at the failing input — the one-marker log
`[TxScopeMarker(prev=0, next=5)]`, exactly what `TransactionComposer`
writes first into a fresh storage — the scan raises instead of leaving
`cur_txscope = 5`. -/
theorem C4_marker_scan_aborts :
    mapUnitStep initState 1 (UnitD.marker 0 5) = none
    ∧ syncAll [UnitD.marker 0 5] = none := by
  constructor <;> rfl

/-! ### Claim C3: modifier-id assignment -/

/-- The assigned modifier id held in a modifier's `mod_assoc`. -/
def assocNat : Assoc → Nat
  | .modId n => n
  | _ => 0

/-- The mapped unit is a `TxScopeFinalize` of scope `T`. -/
def isFinOf (T : Nat) (i : Info) : Bool :=
  (match i.unit with | .finalize _ => true | _ => false) && decide (i.txs = some T)

/-- The mapped unit is a TX modifier of scope `T` whose type sits at
position `j` of `ARFSpec.txmods`. -/
def isModOf (T j : Nat) (i : Info) : Bool :=
  decide (modIdxOf i.unit = some j) && decide (i.txs = some T)

/-- The modifier ids assigned to the `TxScopeFinalize` units of scope `T`,
in scan order. -/
def finAssocs (T : Nat) (infos : List Info) : List Nat :=
  (infos.filter (isFinOf T)).map (fun i => assocNat i.modAssoc)

/-- The modifier ids assigned to the scope-`T` modifiers of type position
`j` mapped before the first `TxScopeFinalize` of scope `T` — i.e. within
the scope, which a finalize ends. -/
def preFinModAssocs (T j : Nat) (infos : List Info) : List Nat :=
  ((infos.takeWhile (fun i => !isFinOf T i)).filter (isModOf T j)).map
    (fun i => assocNat i.modAssoc)

theorem finAssocs_cons_false {T : Nat} {i : Info} {infos' : List Info}
    (h : isFinOf T i = false) :
    finAssocs T (i :: infos') = finAssocs T infos' := by
  simp [finAssocs, List.filter_cons, h]

theorem finAssocs_cons_true {T : Nat} {i : Info} {infos' : List Info}
    (h : isFinOf T i = true) :
    finAssocs T (i :: infos') = assocNat i.modAssoc :: finAssocs T infos' := by
  simp [finAssocs, List.filter_cons, h]

theorem preFin_cons_false {T j : Nat} {i : Info} {infos' : List Info}
    (hf : isFinOf T i = false) (hm : isModOf T j i = false) :
    preFinModAssocs T j (i :: infos') = preFinModAssocs T j infos' := by
  simp [preFinModAssocs, List.takeWhile_cons, hf, List.filter_cons, hm]

theorem preFin_cons_mod {T j : Nat} {i : Info} {infos' : List Info}
    (hf : isFinOf T i = false) (hm : isModOf T j i = true) :
    preFinModAssocs T j (i :: infos')
      = assocNat i.modAssoc :: preFinModAssocs T j infos' := by
  simp [preFinModAssocs, List.takeWhile_cons, hf, List.filter_cons, hm]

theorem preFin_cons_fin {T j : Nat} {i : Info} {infos' : List Info}
    (hf : isFinOf T i = true) :
    preFinModAssocs T j (i :: infos') = [] := by
  simp [preFinModAssocs, List.takeWhile_cons, hf]

theorem mapRun_cons_eq (st : MState) (sid : Nat) (u : UnitD)
    (us : List UnitD) :
    mapRun st sid (u :: us)
      = match mapUnitStep st sid u with
        | none => none
        | some (st1, i) =>
            match mapRun st1 (sid + 1) us with
            | none => none
            | some (st2, is) => some (st2, i :: is) :=
  rfl

/-- Prepending a mapped unit that is neither a finalize of `T` nor a
type-`j` modifier of `T` changes none of the three invariant clauses. -/
theorem invariant_cons_skip {T j : Nat} {i : Info} {infos' : List Info}
    {b0 bj cj : Nat}
    (hf : isFinOf T i = false) (hm : isModOf T j i = false)
    (ihF : finAssocs T infos' = List.range' b0 (finAssocs T infos').length)
    (ihP : preFinModAssocs T j infos'
      = List.range' bj (preFinModAssocs T j infos').length)
    (ihC : cj = bj + (infos'.filter (isFinOf T)).length
      + (infos'.filter (fun x => isModOf T j x && !isFinOf T x)).length) :
    finAssocs T (i :: infos')
      = List.range' b0 (finAssocs T (i :: infos')).length
    ∧ preFinModAssocs T j (i :: infos')
        = List.range' bj (preFinModAssocs T j (i :: infos')).length
    ∧ cj = bj + ((i :: infos').filter (isFinOf T)).length
        + ((i :: infos').filter (fun x => isModOf T j x && !isFinOf T x)).length := by
  refine ⟨?_, ?_, ?_⟩
  · rw [finAssocs_cons_false hf]; exact ihF
  · rw [preFin_cons_false hf hm]; exact ihP
  · simp only [List.filter_cons, hf, hm, Bool.false_and]
    simp only [if_neg Bool.false_ne_true]
    exact ihC

/-- Prepending a type-`j` scope-`T` modifier (not a finalize) whose
assigned id is the current counter `bj` extends the pre-finalize id list
by `bj` in front and shifts the counter by one. -/
theorem invariant_cons_mod {T j : Nat} {i : Info} {infos' : List Info}
    {b0 bj cj : Nat}
    (hf : isFinOf T i = false) (hm : isModOf T j i = true)
    (hv : assocNat i.modAssoc = bj)
    (ihF : finAssocs T infos' = List.range' b0 (finAssocs T infos').length)
    (ihP : preFinModAssocs T j infos'
      = List.range' (bj + 1) (preFinModAssocs T j infos').length)
    (ihC : cj = (bj + 1) + (infos'.filter (isFinOf T)).length
      + (infos'.filter (fun x => isModOf T j x && !isFinOf T x)).length) :
    finAssocs T (i :: infos')
      = List.range' b0 (finAssocs T (i :: infos')).length
    ∧ preFinModAssocs T j (i :: infos')
        = List.range' bj (preFinModAssocs T j (i :: infos')).length
    ∧ cj = bj + ((i :: infos').filter (isFinOf T)).length
        + ((i :: infos').filter (fun x => isModOf T j x && !isFinOf T x)).length := by
  refine ⟨?_, ?_, ?_⟩
  · rw [finAssocs_cons_false hf]; exact ihF
  · rw [preFin_cons_mod hf hm, hv, List.length_cons, List.range'_succ]
    rw [← ihP]
  · have hcond : (isModOf T j i && !isFinOf T i) = true := by
      rw [hf, hm]; rfl
    simp only [List.filter_cons]
    rw [hcond, hf]
    simp only [if_neg Bool.false_ne_true, if_pos rfl, if_true, List.length_cons]
    omega

/-- Prepending a scope-`T` finalize whose assigned id is the current
finalize counter `b0` extends the finalize id list by `b0` in front,
empties the pre-finalize window, and shifts every counter by one. -/
theorem invariant_cons_fin {T j : Nat} {i : Info} {infos' : List Info}
    {b0 bj cj : Nat}
    (hf : isFinOf T i = true)
    (hv : assocNat i.modAssoc = b0)
    (ihF : finAssocs T infos'
      = List.range' (b0 + 1) (finAssocs T infos').length)
    (ihC : cj = (bj + 1) + (infos'.filter (isFinOf T)).length
      + (infos'.filter (fun x => isModOf T j x && !isFinOf T x)).length) :
    finAssocs T (i :: infos')
      = List.range' b0 (finAssocs T (i :: infos')).length
    ∧ preFinModAssocs T j (i :: infos')
        = List.range' bj (preFinModAssocs T j (i :: infos')).length
    ∧ cj = bj + ((i :: infos').filter (isFinOf T)).length
        + ((i :: infos').filter (fun x => isModOf T j x && !isFinOf T x)).length := by
  refine ⟨?_, ?_, ?_⟩
  · rw [finAssocs_cons_true hf, hv, List.length_cons, List.range'_succ]
    rw [← ihF]
  · rw [preFin_cons_fin hf]
    rfl
  · have hcond : (isModOf T j i && !isFinOf T i) = false := by
      rw [hf]
      simp
    simp only [List.filter_cons]
    rw [hcond, hf]
    simp only [if_neg Bool.false_ne_true, if_pos rfl, if_true, List.length_cons]
    omega

/-- The scan invariant behind C3, over any successfully mapped run: the
finalize ids of scope `T` continue the pre-run counter consecutively; the
pre-finalize type-`j` modifier ids of scope `T` continue the pre-run
counter consecutively; and the counter's final value accounts one bump per
type-`j` modifier and one per finalize of the scope. -/
theorem mapRun_assoc_invariant (T j : Nat) :
    ∀ (us : List UnitD) (st : MState) (sid : Nat) (st2 : MState)
      (infos : List Info),
      mapRun st sid us = some (st2, infos) →
      finAssocs T infos
        = List.range' (st.modNext T 0) (finAssocs T infos).length
      ∧ preFinModAssocs T j infos
          = List.range' (st.modNext T j) (preFinModAssocs T j infos).length
      ∧ st2.modNext T j
          = st.modNext T j + (infos.filter (isFinOf T)).length
            + (infos.filter (fun x => isModOf T j x && !isFinOf T x)).length := by
  intro us
  induction us with
  | nil =>
      intro st sid st2 infos h
      have h' : some (st, ([] : List Info)) = some (st2, infos) := h
      simp only [Option.some.injEq, Prod.mk.injEq] at h'
      obtain ⟨h1, h2⟩ := h'
      subst h1; subst h2
      exact ⟨rfl, rfl, by simp [finAssocs, preFinModAssocs]⟩
  | cons u us ih =>
      intro st sid st2 infos h
      rw [mapRun_cons_eq] at h
      cases hstep : mapUnitStep st sid u with
      | none => rw [hstep] at h; exact absurd h (by simp)
      | some p1 =>
          obtain ⟨st1, i⟩ := p1
          rw [hstep] at h
          dsimp only at h
          cases hrun : mapRun st1 (sid + 1) us with
          | none => rw [hrun] at h; exact absurd h (by simp)
          | some p2 =>
              obtain ⟨st2', infos'⟩ := p2
              rw [hrun] at h
              dsimp only at h
              simp only [Option.some.injEq, Prod.mk.injEq] at h
              obtain ⟨h1, h2⟩ := h
              subst h1; subst h2
              obtain ⟨ihF, ihP, ihC⟩ := ih st1 (sid + 1) st2' infos' hrun
              cases u with
              | marker p n =>
                  unfold mapUnitStep at hstep
                  dsimp only at hstep
                  split at hstep
                  · simp only [Option.some.injEq, Prod.mk.injEq] at hstep
                    obtain ⟨hs1, hi⟩ := hstep
                    subst hs1; subst hi
                    exact invariant_cons_skip (by simp [isFinOf])
                      (by simp [isModOf, modIdxOf]) ihF ihP ihC
                  · exact absurd hstep (by simp)
              | frameMeta o =>
                  have hstep' : some (st, (⟨sid, none, UnitD.frameMeta o,
                      Assoc.noAssoc⟩ : Info)) = some (st1, i) := hstep
                  simp only [Option.some.injEq, Prod.mk.injEq] at hstep'
                  obtain ⟨hs1, hi⟩ := hstep'
                  subst hs1; subst hi
                  exact invariant_cons_skip (by simp [isFinOf])
                    (by simp [isModOf, modIdxOf]) ihF ihP ihC
              | finalize b =>
                  unfold mapUnitStep at hstep
                  cases hcur : st.cur with
                  | none => rw [hcur] at hstep; exact absurd hstep (by simp)
                  | some T2 =>
                      rw [hcur] at hstep
                      dsimp only at hstep
                      simp only [Option.some.injEq, Prod.mk.injEq] at hstep
                      obtain ⟨hs1, hi⟩ := hstep
                      subst hs1; subst hi
                      by_cases hT : T2 = T
                      · subst hT
                        rw [bumpAll_modNext_same] at ihF
                        rw [bumpAll_modNext_same] at ihC
                        refine invariant_cons_fin ?_ rfl ihF (by omega)
                        simp [isFinOf]
                      · rw [bumpAll_modNext_other st 0 (Ne.symm hT)] at ihF
                        rw [bumpAll_modNext_other st j (Ne.symm hT)] at ihP
                        rw [bumpAll_modNext_other st j (Ne.symm hT)] at ihC
                        exact invariant_cons_skip
                          (by simp [isFinOf, hT])
                          (by simp [isModOf, hT]) ihF ihP ihC
              | select s =>
                  unfold mapUnitStep at hstep
                  cases hcur : st.cur with
                  | none => rw [hcur] at hstep; exact absurd hstep (by simp)
                  | some T2 =>
                      rw [hcur] at hstep
                      dsimp only at hstep
                      simp only [Option.some.injEq, Prod.mk.injEq] at hstep
                      obtain ⟨hs1, hi⟩ := hstep
                      subst hs1; subst hi
                      by_cases hTj : T2 = T ∧ j = 1
                      · obtain ⟨hT, hj⟩ := hTj
                        subst hT; subst hj
                        rw [bumpAt_modNext_other st T2 0 (by omega)] at ihF
                        rw [bumpAt_modNext_same] at ihP
                        rw [bumpAt_modNext_same] at ihC
                        exact invariant_cons_mod (by simp [isFinOf])
                          (by simp [isModOf, modIdxOf]) rfl ihF ihP (by omega)
                      · have hne0 : ¬(T = T2 ∧ (0 : Nat) = 1) := by omega
                        have hnej : ¬(T = T2 ∧ j = 1) := fun hc =>
                          hTj ⟨hc.1.symm, hc.2⟩
                        rw [bumpAt_modNext_other st T 0 hne0] at ihF
                        rw [bumpAt_modNext_other st T j hnej] at ihP
                        rw [bumpAt_modNext_other st T j hnej] at ihC
                        refine invariant_cons_skip (by simp [isFinOf]) ?_ ihF ihP ihC
                        simp only [isModOf, modIdxOf, Option.some.injEq,
                          Bool.and_eq_false_iff, decide_eq_false_iff_not]
                        by_cases hj : j = 1
                        · exact Or.inr (fun he => hTj
                            ⟨Option.some.injEq T2 T ▸ he, hj⟩)
                        · exact Or.inl (fun he => hj he.symm)
              | groupSelect g m =>
                  unfold mapUnitStep at hstep
                  cases hcur : st.cur with
                  | none => rw [hcur] at hstep; exact absurd hstep (by simp)
                  | some T2 =>
                      rw [hcur] at hstep
                      dsimp only at hstep
                      simp only [Option.some.injEq, Prod.mk.injEq] at hstep
                      obtain ⟨hs1, hi⟩ := hstep
                      subst hs1; subst hi
                      by_cases hTj : T2 = T ∧ j = 2
                      · obtain ⟨hT, hj⟩ := hTj
                        subst hT; subst hj
                        rw [bumpAt_modNext_other st T2 0 (by omega)] at ihF
                        rw [bumpAt_modNext_same] at ihP
                        rw [bumpAt_modNext_same] at ihC
                        exact invariant_cons_mod (by simp [isFinOf])
                          (by simp [isModOf, modIdxOf]) rfl ihF ihP (by omega)
                      · have hne0 : ¬(T = T2 ∧ (0 : Nat) = 2) := by omega
                        have hnej : ¬(T = T2 ∧ j = 2) := fun hc =>
                          hTj ⟨hc.1.symm, hc.2⟩
                        rw [bumpAt_modNext_other st T 0 hne0] at ihF
                        rw [bumpAt_modNext_other st T j hnej] at ihP
                        rw [bumpAt_modNext_other st T j hnej] at ihC
                        refine invariant_cons_skip (by simp [isFinOf]) ?_ ihF ihP ihC
                        simp only [isModOf, modIdxOf, Option.some.injEq,
                          Bool.and_eq_false_iff, decide_eq_false_iff_not]
                        by_cases hj : j = 2
                        · exact Or.inr (fun he => hTj
                            ⟨Option.some.injEq T2 T ▸ he, hj⟩)
                        · exact Or.inl (fun he => hj he.symm)
              | writeBlock o d =>
                  unfold mapUnitStep at hstep
                  cases hcur : st.cur with
                  | none => rw [hcur] at hstep; exact absurd hstep (by simp)
                  | some T2 =>
                      rw [hcur] at hstep
                      dsimp only at hstep
                      simp only [Option.some.injEq, Prod.mk.injEq] at hstep
                      obtain ⟨hs1, hi⟩ := hstep
                      subst hs1; subst hi
                      exact invariant_cons_skip (by simp [isFinOf])
                        (by simp [isModOf, modIdxOf]) ihF ihP ihC
              | createU z =>
                  unfold mapUnitStep at hstep
                  cases hcur : st.cur with
                  | none => rw [hcur] at hstep; exact absurd hstep (by simp)
                  | some T2 =>
                      rw [hcur] at hstep
                      dsimp only at hstep
                      simp only [Option.some.injEq, Prod.mk.injEq] at hstep
                      obtain ⟨hs1, hi⟩ := hstep
                      subst hs1; subst hi
                      exact invariant_cons_skip (by simp [isFinOf])
                        (by simp [isModOf, modIdxOf]) ihF ihP ihC
              | discardU =>
                  unfold mapUnitStep at hstep
                  cases hcur : st.cur with
                  | none => rw [hcur] at hstep; exact absurd hstep (by simp)
                  | some T2 =>
                      rw [hcur] at hstep
                      dsimp only at hstep
                      simp only [Option.some.injEq, Prod.mk.injEq] at hstep
                      obtain ⟨hs1, hi⟩ := hstep
                      subst hs1; subst hi
                      exact invariant_cons_skip (by simp [isFinOf])
                        (by simp [isModOf, modIdxOf]) ihF ihP ihC

/-- Phase A maps only GLOBAL units and never touches the modifier
counters: over a run of non-TX units starting with no open scope, the
counters are untouched and every mapped info is scope-less. -/
theorem mapRun_global_props :
    ∀ (us : List UnitD) (st : MState) (sid : Nat) (st' : MState)
      (infos : List Info),
      st.cur = none → (∀ u ∈ us, isTX u = false) →
      mapRun st sid us = some (st', infos) →
      (∀ T k, st'.modNext T k = st.modNext T k) ∧ ∀ i ∈ infos, i.txs = none := by
  intro us
  induction us with
  | nil =>
      intro st sid st' infos hcur hglob h
      have h' : some (st, ([] : List Info)) = some (st', infos) := h
      simp only [Option.some.injEq, Prod.mk.injEq] at h'
      obtain ⟨h1, h2⟩ := h'
      subst h1; subst h2
      exact ⟨fun T k => rfl, by simp⟩
  | cons u us ih =>
      intro st sid st' infos hcur hglob h
      rw [mapRun_cons_eq] at h
      have hTX := hglob u (List.mem_cons_self u us)
      cases u with
      | finalize b => simp [isTX] at hTX
      | select s => simp [isTX] at hTX
      | groupSelect g m => simp [isTX] at hTX
      | writeBlock o d => simp [isTX] at hTX
      | createU z => simp [isTX] at hTX
      | discardU => simp [isTX] at hTX
      | marker p n =>
          have hstep : mapUnitStep st sid (UnitD.marker p n) = none := by
            unfold mapUnitStep
            dsimp only
            rw [hcur]
            simp
          rw [hstep] at h
          exact absurd h (by simp)
      | frameMeta o =>
          have hstep : mapUnitStep st sid (UnitD.frameMeta o)
              = some (st, ⟨sid, none, UnitD.frameMeta o, Assoc.noAssoc⟩) := rfl
          rw [hstep] at h
          dsimp only at h
          cases hrun : mapRun st (sid + 1) us with
          | none => rw [hrun] at h; exact absurd h (by simp)
          | some p2 =>
              obtain ⟨st2', infos'⟩ := p2
              rw [hrun] at h
              dsimp only at h
              simp only [Option.some.injEq, Prod.mk.injEq] at h
              obtain ⟨h1, h2⟩ := h
              subst h1; subst h2
              obtain ⟨ihM, ihT⟩ := ih st (sid + 1) st2' infos' hcur
                (fun x hx => hglob x (List.mem_cons_of_mem _ hx)) hrun
              refine ⟨ihM, ?_⟩
              intro i hi
              rcases List.mem_cons.mp hi with rfl | hi2
              · rfl
              · exact ihT i hi2

theorem takeWhile_append_all {α : Type} {p : α → Bool} :
    ∀ (l1 l2 : List α), (∀ a ∈ l1, p a = true) →
      (l1 ++ l2).takeWhile p = l1 ++ l2.takeWhile p := by
  intro l1
  induction l1 with
  | nil => intro l2 _; rfl
  | cons a t ih =>
      intro l2 h
      rw [List.cons_append, List.takeWhile_cons,
        h a (List.mem_cons_self a t)]
      simp only [if_true]
      rw [ih l2 (fun x hx => h x (List.mem_cons_of_mem a hx)), List.cons_append]

/-- Assembling a full scan: the GLOBAL prefix of mapped infos contributes
nothing to any scope's modifier-id lists, so the lists over the whole scan
are those over the main-loop infos, which start at counter 0. -/
theorem syncAll_combine (T j : Nat) (infosA infosC : List Info)
    (hA : ∀ i ∈ infosA, i.txs = none)
    (hCf : finAssocs T infosC = List.range' 0 (finAssocs T infosC).length)
    (hCp : preFinModAssocs T j infosC
      = List.range' 0 (preFinModAssocs T j infosC).length) :
    finAssocs T (infosA ++ infosC)
      = List.range (finAssocs T (infosA ++ infosC)).length
    ∧ preFinModAssocs T j (infosA ++ infosC)
        = List.range (preFinModAssocs T j (infosA ++ infosC)).length := by
  have hfin : ∀ i ∈ infosA, isFinOf T i = false := fun i hi => by
    simp [isFinOf, hA i hi]
  have hmod : ∀ i ∈ infosA, isModOf T j i = false := fun i hi => by
    simp [isModOf, hA i hi]
  have hfilA : infosA.filter (isFinOf T) = [] :=
    List.filter_eq_nil_iff.mpr (fun a ha => by rw [hfin a ha]; simp)
  have hfilA2 : infosA.filter (isModOf T j) = [] :=
    List.filter_eq_nil_iff.mpr (fun a ha => by rw [hmod a ha]; simp)
  have h1 : finAssocs T (infosA ++ infosC) = finAssocs T infosC := by
    unfold finAssocs
    rw [List.filter_append, hfilA, List.nil_append]
  have htw : (infosA ++ infosC).takeWhile (fun i => !isFinOf T i)
      = infosA ++ infosC.takeWhile (fun i => !isFinOf T i) :=
    takeWhile_append_all _ _ (fun a ha => by rw [hfin a ha]; rfl)
  have h2 : preFinModAssocs T j (infosA ++ infosC)
      = preFinModAssocs T j infosC := by
    unfold preFinModAssocs
    rw [htw, List.filter_append, hfilA2, List.nil_append]
  refine ⟨?_, ?_⟩
  · rw [h1, List.range_eq_range']
    exact hCf
  · rw [h2, List.range_eq_range']
    exact hCp

/-- **C3.** Within a single transaction scope `T`, the modifier ids the
mapper assigns to successive TX modifiers of a given modifier type (type
position `j` in the spec's `txmods` registration order) form the sequence
`0, 1, 2, …` in scan order: each new TX modifier of the type records the
pre-bump next-id and increments it by one.  Since a scope *ends* at its
`TxScopeFinalize` (data model §3) — and mapping a finalize bumps every
counter of its scope — the sequence statement covers, for an ordinary
modifier type, the scope's units up to its first finalize
(`preFinModAssocs`), and for `TxScopeFinalize` itself all its occurrences
(`finAssocs`). -/
theorem C3_modifier_ids (log : List UnitD) (infos : List Info) (T j : Nat)
    (h : syncAll log = some infos) :
    finAssocs T infos = List.range (finAssocs T infos).length
    ∧ preFinModAssocs T j infos
        = List.range (preFinModAssocs T j infos).length := by
  unfold syncAll at h
  cases hA : mapRun initState 1 (log.takeWhile (fun u => !isTX u)) with
  | none => rw [hA] at h; exact absurd h (by simp)
  | some pA =>
      obtain ⟨stA, infosA⟩ := pA
      rw [hA] at h
      dsimp only at h
      have hglobA : ∀ u ∈ log.takeWhile (fun u => !isTX u), isTX u = false :=
        fun u hu => by
          have := List.mem_takeWhile_imp hu
          simpa using this
      obtain ⟨hmodA, htxsA⟩ :=
        mapRun_global_props _ initState 1 stA infosA rfl hglobA hA
      cases hr : log.dropWhile (fun u => !isTX u) with
      | nil =>
          rw [hr] at h
          dsimp only at h
          simp only [Option.some.injEq] at h
          subst h
          have : infosA = infosA ++ ([] : List Info) := by simp
          rw [this]
          exact syncAll_combine T j infosA [] htxsA rfl rfl
      | cons r0 rrest =>
          rw [hr] at h
          dsimp only at h
          cases hfm : findMarkerPrev (r0 :: rrest) with
          | none =>
              rw [hfm] at h
              dsimp only at h
              simp only [Option.some.injEq] at h
              subst h
              have : infosA = infosA ++ ([] : List Info) := by simp
              rw [this]
              exact syncAll_combine T j infosA [] htxsA rfl rfl
          | some p =>
              rw [hfm] at h
              dsimp only at h
              cases hC : mapRun { stA with cur := some p }
                  ((log.takeWhile (fun u => !isTX u)).length + 1)
                  (r0 :: rrest) with
              | none => rw [hC] at h; exact absurd h (by simp)
              | some pC =>
                  obtain ⟨stC, infosC⟩ := pC
                  rw [hC] at h
                  dsimp only at h
                  simp only [Option.some.injEq] at h
                  subst h
                  obtain ⟨hCf, hCp, _⟩ :=
                    mapRun_assoc_invariant T j (r0 :: rrest)
                      { stA with cur := some p } _ stC infosC hC
                  have hb0 : ({ stA with cur := some p } : MState).modNext T 0
                      = 0 := hmodA T 0
                  have hbj : ({ stA with cur := some p } : MState).modNext T j
                      = 0 := hmodA T j
                  rw [hb0] at hCf
                  rw [hbj] at hCp
                  exact syncAll_combine T j infosA infosC htxsA hCf hCp

/-- Demo log for the C3 witness: a stray `StrandSelect` (which ends phase
A), the first `TxScopeMarker` (prev 0, next 5) — adopted by the phase-B
bootstrap — then in scope 5: two `StrandSelect`s around a
`StrandWriteDataBlock`, and a committing `TxScopeFinalize`. -/
def demoMapLog : List UnitD :=
  [.select 1, .marker 0 5, .select 2, .writeBlock 0 3, .select 3,
   .finalize true]

/-- The infos the mapper produces for `demoMapLog`. -/
def demoMapInfos : List Info :=
  [⟨1, some 0, .select 1, .modId 0⟩,
   ⟨2, none, .marker 0 5, .noAssoc⟩,
   ⟨3, some 5, .select 2, .modId 0⟩,
   ⟨4, some 5, .writeBlock 0 3, .snap 0 1 0⟩,
   ⟨5, some 5, .select 3, .modId 1⟩,
   ⟨6, some 5, .finalize true, .modId 0⟩]

/-- Witness for C3: in scope 5 of `demoMapLog`, the `StrandSelect`
modifiers before the finalize receive ids 0, 1 and the finalize receives
id 0. -/
theorem C3_modifier_ids_witness :
    syncAll demoMapLog = some demoMapInfos
    ∧ (finAssocs 5 demoMapInfos
        = List.range (finAssocs 5 demoMapInfos).length
      ∧ preFinModAssocs 5 1 demoMapInfos
          = List.range (preFinModAssocs 5 1 demoMapInfos).length) :=
  ⟨by rfl, C3_modifier_ids demoMapLog demoMapInfos 5 1 (by rfl)⟩

/-! ### Claim C10: `__getitem__` syncs before looking up -/

/-- `UnitsMap.last_sync_id` (lines 619-631): the largest mapped store id,
`-1` before anything is mapped. -/
def lastSyncId (infos : List Info) : Int :=
  match infos.getLast? with
  | none => -1
  | some i => (i.storeId : Int)

/-- `self.units[k]` on the mapped infos (a `KeyError`, i.e. `none`, when
`k` is unmapped). -/
def lookupInfo (infos : List Info) (k : Nat) : Option Info :=
  infos.find? (fun i => i.storeId == k)

/-- `ARFMapper.__getitem__` / `get` (lines 728-737) against a mapper that
has previously synced the first `synced` units of a storage now holding
`log`: `if k > self.units.last_sync_id: self.sync()`, then `self.units[k]`.
A resumed `sync()` scans deterministically to quiescence, so the caught-up
state equals a fresh full scan of `log`.  The outer `none` is a scan
error; `some none` is the `KeyError` (`get` returning `None`). -/
def mapperGetItem (log : List UnitD) (synced k : Nat) :
    Option (Option Info) :=
  match syncAll (log.take synced) with
  | none => none
  | some infos0 =>
      if (k : Int) > lastSyncId infos0 then
        match syncAll log with
        | none => none
        | some infos => some (lookupInfo infos k)
      else some (lookupInfo infos0 k)

/-- **C10.** For every id `k` greater than the last id the mapper has
synced, `__getitem__(k)` (and `get(k)`) first runs `sync()` — scanning the
newly appended storage — before looking `k` up: the result is exactly the
lookup in the caught-up unit map; hence a lookup of a just-appended id
succeeds without an explicit prior `sync()` call, and a `KeyError` (or
`None` from `get`) is only produced when `k` is still absent after the
scan has caught up. -/
theorem C10_getitem_syncs_first (log : List UnitD) (synced k : Nat)
    (infos0 infos : List Info) (i : Info)
    (h0 : syncAll (log.take synced) = some infos0)
    (hk : (k : Int) > lastSyncId infos0)
    (h : syncAll log = some infos) :
    mapperGetItem log synced k = some (lookupInfo infos k)
    ∧ (lookupInfo infos k = some i →
        mapperGetItem log synced k = some (some i))
    ∧ (mapperGetItem log synced k = some none → lookupInfo infos k = none) := by
  have hmain : mapperGetItem log synced k = some (lookupInfo infos k) := by
    unfold mapperGetItem
    rw [h0]
    dsimp only
    rw [if_pos hk, h]
  refine ⟨hmain, ?_, ?_⟩
  · intro hi
    rw [hmain, hi]
  · intro hnone
    rw [hmain] at hnone
    simp only [Option.some.injEq] at hnone
    exact hnone

/-- Demo for the C10 witness: the mapper has synced the first two units;
unit 3 (`StrandSelect` in scope 5) is appended afterwards. -/
def demoC10Log : List UnitD := [.select 1, .marker 0 5, .select 2]

def demoC10Infos0 : List Info :=
  [⟨1, some 0, .select 1, .modId 0⟩, ⟨2, none, .marker 0 5, .noAssoc⟩]

def demoC10Infos : List Info :=
  [⟨1, some 0, .select 1, .modId 0⟩, ⟨2, none, .marker 0 5, .noAssoc⟩,
   ⟨3, some 5, .select 2, .modId 0⟩]

/-- Witness for C10: looking up the just-appended id 3 succeeds without an
explicit prior `sync()`. -/
theorem C10_getitem_syncs_first_witness :
    mapperGetItem demoC10Log 2 3 = some (lookupInfo demoC10Infos 3)
    ∧ (lookupInfo demoC10Infos 3
          = some ⟨3, some 5, .select 2, .modId 0⟩ →
        mapperGetItem demoC10Log 2 3
          = some (some ⟨3, some 5, .select 2, .modId 0⟩))
    ∧ (mapperGetItem demoC10Log 2 3 = some none →
        lookupInfo demoC10Infos 3 = none) :=
  C10_getitem_syncs_first demoC10Log 2 3 demoC10Infos0 demoC10Infos
    ⟨3, some 5, .select 2, .modId 0⟩ (by rfl) (by decide) (by rfl)

end ARF
